import Mathlib

/-!
# Verification of the hypertime simulation engine

A shallow embedding of `src/util.ts` from the `hypertime` repository.

The engine works over JavaScript numbers, but the spec (§1, §9) restricts the
intended arithmetic to integers with `Infinity` used as a sentinel for
"last chunk end" and a quiescent clock.  We therefore model every time axis
value as an extended integer `ETime` (a finite `Int`, or the distinguished
`ETime.inf` for `+Infinity`).  Calendar offsets of trips are always finite
(`Int`).  Fallible operations (the TypeScript functions that `throw`) return
`Except String`.

The file has two parts: first the definitions (the embedding of the engine,
spec-side reference definitions, and concrete example states), then the
theorems about them.
-/

namespace Hypertime

/-- Extended time: a finite integer, or `+Infinity`.  Used for `Hypertime`,
`RealTime`, and chunk interval endpoints, matching the engine's use of
JavaScript `Infinity` as sentinel. -/
inductive ETime where
  | fin (n : Int)
  | inf
deriving DecidableEq, Repr

namespace ETime

/-- Embed into `WithTop Int` to inherit the linear order. -/
def toW : ETime → WithTop Int
  | fin n => (n : WithTop Int)
  | inf => ⊤

instance : LinearOrder ETime :=
  LinearOrder.lift' toW (by
    intro a b h
    cases a <;> cases b <;> simp [toW] at h <;> simp [h])

/-- JavaScript addition on time values (`Infinity + x = Infinity`). -/
def add : ETime → ETime → ETime
  | fin a, fin b => fin (a + b)
  | _, _ => inf

instance : Add ETime := ⟨add⟩

/-- JavaScript subtraction on time values as the engine uses it.
`Infinity - finite = Infinity`.  Subtractions whose right operand is
`Infinity` never occur on any engine path whose result is observable
(JavaScript would yield `NaN` or `-Infinity` there); we map them to `inf`. -/
def sub : ETime → ETime → ETime
  | fin a, fin b => fin (a - b)
  | _, _ => inf

instance : Sub ETime := ⟨sub⟩

end ETime

/-- `hc2rt` from the source: a traveler leaving hypertime `h` with calendar
offset `c` departs at real time `h + c`. -/
def hc2rt (h : ETime) (c : Int) : ETime := h + ETime.fin c

/-- `rc2ht` from the source: a traveler departing at real time `r` with
calendar offset `c` lands on hypertime `r - c`. -/
def rc2ht (r : ETime) (c : Int) : ETime := r - ETime.fin c

/-- `rh2ct` from the source: the calendar offset relating real time `r`
and hypertime `h`. -/
def rh2ct (r : ETime) (h : ETime) : ETime := r - h

/-- A trip rule: `{ id, depart, arrive }` with calendar offsets. -/
structure Trip where
  id : String
  depart : Int
  arrive : Int
deriving DecidableEq, Repr

/-- A history: the exact set of trip ids that have occurred. -/
abbrev History := Finset String

/-- A discovered candidate firing of a trip (`EventR` in the source). -/
structure Event where
  tripId : String
  r0 : ETime
  departH0 : ETime
  arriveH0 : ETime
deriving DecidableEq, Repr

/-- A permanent log record (`BoxR` in the source): the trip named in `start`
was in transit for the real-time interval `[start.r0, rf)`. -/
structure Box where
  start : Event
  rf : ETime
deriving DecidableEq, Repr

/-- A chunk (`ChunkR` in the source): the half-open hypertime interval
`[start, end_)` carries history `history`.  (`end` is a Lean keyword, hence
`end_`.) -/
structure Chunk where
  start : ETime
  end_ : ETime
  history : History
deriving DecidableEq

/-- The aggregate simulation state (`GodViewR` in the source).  The ruleset
is modelled as a lookup function, exactly how the engine consumes it
(`gv.rules.get(history) ?? []`). -/
structure GodView where
  rules : History → List Trip
  now : ETime
  chunks : List Chunk
  past : List Box

/-- Effectful map over a list in `Except`, evaluated left to right and
stopping at the first error — the semantics of a JavaScript loop of
possibly-throwing statements. -/
def exMapM (f : α → Except String β) : List α → Except String (List β)
  | [] => .ok []
  | a :: as => do
    let b ← f a
    let bs ← exMapM f as
    pure (b :: bs)

instance {ε α : Type _} [DecidableEq ε] [DecidableEq α] : DecidableEq (Except ε α) :=
  fun x y =>
    match x, y with
    | .error a, .error b =>
      if h : a = b then .isTrue (by rw [h]) else .isFalse (by intro hc; cases hc; exact h rfl)
    | .ok a, .ok b =>
      if h : a = b then .isTrue (by rw [h]) else .isFalse (by intro hc; cases hc; exact h rfl)
    | .error _, .ok _ => .isFalse (by intro hc; cases hc)
    | .ok _, .error _ => .isFalse (by intro hc; cases hc)

/-! ## Stable sorting by an `ETime` key (Immutable.js `sortBy`) -/

/-- Insert `c` into an already sorted list, after every element whose key is
strictly smaller, keeping it before elements with an equal key (stability). -/
def insertByKey (key : α → ETime) (c : α) : List α → List α
  | [] => [c]
  | d :: rest => if key d < key c then d :: insertByKey key c rest else c :: d :: rest

/-- Stable insertion sort by an `ETime` key, modelling `sortBy`. -/
def sortByKey (key : α → ETime) (l : List α) : List α := l.foldr (insertByKey key) []

/-! ## Boxes: `normalizeBoxes` -/

/-- `findLastIndex` over a list, returning the index and the element. -/
def findLastWithIdx (p : α → Bool) : List α → Option (Nat × α)
  | [] => none
  | x :: xs =>
    match findLastWithIdx p xs with
    | some (i, a) => some (i + 1, a)
    | none => if p x then some (0, x) else none

/-- The predicate searched for by `normalizeBoxes`' `findLastIndex`: either
`b` is a same-trip box abutting `newBox` on the left, or `b`'s arrival
hypertime lies inside `newBox`'s departure band. -/
def boxMatch (newBox b : Box) : Bool :=
  (decide (b.start.tripId = newBox.start.tripId) && decide (b.rf = newBox.start.r0))
  || (decide (newBox.start.departH0 ≤ b.start.arriveH0)
      && decide (b.start.arriveH0 < newBox.start.departH0 + (newBox.rf - newBox.start.r0)))

/-- The abutting-merge condition checked on the found box before merging. -/
def boxAbuts (prev newBox : Box) : Bool :=
  decide (prev.start.tripId = newBox.start.tripId) && decide (prev.rf = newBox.start.r0)

/-- The loop body of `normalizeBoxes`: fold the remaining boxes into the
accumulated result, merging a new box into the last matching box when that
box is a same-trip abutting one, and appending it otherwise. -/
def normalizeBoxesLoop : List Box → List Box → List Box
  | res, [] => res
  | res, newBox :: rest =>
    match findLastWithIdx (boxMatch newBox) res with
    | some (i, prev) =>
      if boxAbuts prev newBox
      then normalizeBoxesLoop (res.set i { prev with rf := newBox.rf }) rest
      else normalizeBoxesLoop (res ++ [newBox]) rest
    | none => normalizeBoxesLoop (res ++ [newBox]) rest

/-- `normalizeBoxes` from the source: sort by `start.r0`, then merge each box
into the last matching previous box when they abut and share a trip id. -/
def normalizeBoxes (boxes : List Box) : List Box :=
  match sortByKey (fun b => b.start.r0) boxes with
  | [] => []
  | b :: rest => normalizeBoxesLoop [b] rest

/-! ## Chunks: `normalizeChunks` -/

/-- The merge loop of `normalizeChunks`: `prev` is the last chunk of the
accumulated result; adjacent chunks with equal histories merge unless the
shared boundary is in `noJoinAt`. -/
def joinChunks (noJoinAt : List ETime) : Chunk → List Chunk → Except String (List Chunk)
  | prev, [] => .ok [prev]
  | prev, c :: rest =>
    if c.start ≠ prev.end_ then .error "chunks have gaps"
    else if c.history = prev.history ∧ c.start ∉ noJoinAt
    then joinChunks noJoinAt { prev with end_ := c.end_ } rest
    else (joinChunks noJoinAt c rest).map (prev :: ·)

/-- `normalizeChunks` from the source: sort by `start`, check the partition
invariants (nonempty, starts at 0, ends at `+Infinity`, positive lengths,
no gaps) and merge adjacent chunks with equal histories, suppressing the
merge at boundaries listed in `noJoinAt`. -/
def normalizeChunks (chunks : List Chunk) (noJoinAt : List ETime) :
    Except String (List Chunk) :=
  match sortByKey (fun c => c.start) chunks with
  | [] => .error "no chunks"
  | c0 :: rest =>
    if c0.start ≠ ETime.fin 0 then .error "chunks do not start at 0"
    else if ((c0 :: rest).getLast (by simp)).end_ ≠ ETime.inf then
      .error "chunks do not end at Infinity"
    else if (c0 :: rest).any (fun c => decide (c.end_ ≤ c.start)) then
      .error "chunks have zero or negative length"
    else joinChunks noJoinAt c0 rest

/-! ## Event discovery: `getNonPastEvents` -/

/-- The chained-lookahead part of `getNonPastEvents`: when `trip`, departing
from `chunk` right now, lands at `arriveH0`, look up trips keyed by the
arrival chunk's history plus `trip.id` and emit each one whose own departure
time is strictly in the future, keeping the original chunk's start as
`departH0`. -/
def chainedEvents (gv : GodView) (chunk : Chunk) (trip : Trip) (arriveH0 : ETime) :
    Except String (List Event) :=
  match gv.chunks.find? (fun c => decide (c.start ≤ arriveH0) && decide (arriveH0 < c.end_)) with
  | none => .error "no chunk contains arriveH0"
  | some arrivalChunk =>
    .ok ((gv.rules (insert trip.id arrivalChunk.history)).filterMap fun nextTrip =>
      if hc2rt arriveH0 nextTrip.depart ≤ gv.now then none
      else some { tripId := nextTrip.id, r0 := hc2rt arriveH0 nextTrip.depart,
                  departH0 := chunk.start,
                  arriveH0 := rc2ht (hc2rt arriveH0 nextTrip.depart) nextTrip.arrive })

/-- The events contributed by one trip of one chunk: skip if strictly past,
emit the trip's own event, and, when it departs exactly now with a tracked
arrival, additionally the one level of chained lookahead. -/
def eventsForTrip (gv : GodView) (chunk : Chunk) (trip : Trip) :
    Except String (List Event) :=
  let r0 := hc2rt chunk.start trip.depart
  let arriveH0 := rc2ht r0 trip.arrive
  if r0 < gv.now then .ok []
  else
    let primary : Event :=
      { tripId := trip.id, r0 := r0, departH0 := chunk.start, arriveH0 := arriveH0 }
    if r0 = gv.now ∧ ETime.fin 0 ≤ arriveH0 then
      (chainedEvents gv chunk trip arriveH0).map (primary :: ·)
    else .ok [primary]

/-- `getNonPastEvents` from the source. -/
def getNonPastEvents (gv : GodView) : Except String (List Event) :=
  (exMapM (fun chunk =>
      (exMapM (eventsForTrip gv chunk) (gv.rules chunk.history)).map List.flatten)
    gv.chunks).map List.flatten

/-! ## Next-event-time oracle: `getNextInterestingTime` -/

/-- `timeUntilChunkEnd` from the source: the distance from `h0` to the end of
the chunk containing it, or `|h0|` when `h0` is off the left edge of the
universe. -/
def timeUntilChunkEnd (chunks : List Chunk) (h0 : ETime) : Except String ETime :=
  if h0 < ETime.fin 0 then .ok (ETime.fin 0 - h0)
  else
    match chunks.find? (fun c => decide (c.start ≤ h0) && decide (h0 < c.end_)) with
    | none => .error "no chunk contains h0"
    | some c => .ok (c.end_ - h0)

/-- The list of candidate next-interesting times contributed by one event:
its own `r0` when strictly future, otherwise the two chunk-end bounds plus
the self-intersection bounds against every currently-departing event whose
arrival band lies above this event's departure point. -/
def candidatesFor (gv : GodView) (events : List Event) (e : Event) :
    Except String (List ETime) :=
  if gv.now < e.r0 then .ok [e.r0]
  else do
    let t1 ← timeUntilChunkEnd gv.chunks e.departH0
    let t2 ← timeUntilChunkEnd gv.chunks e.arriveH0
    pure ([gv.now + t1, gv.now + t2] ++
      events.filterMap (fun e2 =>
        if e2.r0 = gv.now ∧ e.departH0 < e2.arriveH0
        then some (gv.now + e2.arriveH0 - e.departH0)
        else none))

/-- `getNextInterestingTime` from the source: the minimum of all candidates,
`+Infinity` when there are none (`Math.min()` of an empty spread). -/
def getNextInterestingTime (gv : GodView) : Except String ETime := do
  let events ← getNonPastEvents gv
  let css ← exMapM (candidatesFor gv events) events
  pure (css.flatten.foldr min ETime.inf)

/-! ## Partition evolution: `evolveChunks` -/

/-- Intersection of two closed-endpoint interval pairs as computed by the
`interval-operations` library at the engine's call sites: the overlap
`[max, min)` when nonempty, `none` otherwise. -/
def iopIntersection (a b : ETime × ETime) : Option (ETime × ETime) :=
  if max a.1 b.1 < min a.2 b.2 then some (max a.1 b.1, min a.2 b.2) else none

/-- Difference of an interval and a sub-interval of it as computed by the
`interval-operations` library at the engine's call sites (`hole` is always
an `iopIntersection` with `a`, hence contained in `a`): the nonempty left
and right remainders, in order. -/
def iopDifference (a hole : ETime × ETime) : List (ETime × ETime) :=
  (if a.1 < hole.1 then [(a.1, hole.1)] else [])
    ++ (if hole.2 < a.2 then [(hole.2, a.2)] else [])

/-- Split one subchunk on the arrival band `[e.arriveH0, e.arriveH0 + dt)`:
the overlap is tagged with the arriving trip, the remainders keep the old
history. -/
def splitArrival (dt : ETime) (e : Event) (sub : Chunk) : List Chunk :=
  match iopIntersection (sub.start, sub.end_) (e.arriveH0, e.arriveH0 + dt) with
  | none => [sub]
  | some ov =>
    { start := ov.1, end_ := ov.2, history := insert e.tripId sub.history } ::
      (iopDifference (sub.start, sub.end_) ov).map
        (fun i => { start := i.1, end_ := i.2, history := sub.history })

/-- Split one subchunk on the departure band `[e.departH0, e.departH0 + dt)`;
the history is unchanged on every piece. -/
def splitDeparture (dt : ETime) (e : Event) (sub : Chunk) : List Chunk :=
  match iopIntersection (sub.start, sub.end_) (e.departH0, e.departH0 + dt) with
  | none => [sub]
  | some ov =>
    { start := ov.1, end_ := ov.2, history := sub.history } ::
      (iopDifference (sub.start, sub.end_) ov).map
        (fun i => { start := i.1, end_ := i.2, history := sub.history })

/-- The per-chunk body of `evolveChunks`: split on every event whose arrival
falls inside the chunk, then on every event whose departure does. -/
def evolveChunk (events : List Event) (dt : ETime) (chunk : Chunk) : List Chunk :=
  let arrivals := events.filter
    (fun e => decide (chunk.start ≤ e.arriveH0) && decide (e.arriveH0 < chunk.end_))
  let afterArrivals := arrivals.foldl (fun subs e => subs.flatMap (splitArrival dt e)) [chunk]
  let departures := events.filter
    (fun e => decide (chunk.start ≤ e.departH0) && decide (e.departH0 < chunk.end_))
  departures.foldl (fun subs e => subs.flatMap (splitDeparture dt e)) afterArrivals

/-- `evolveChunks` from the source. -/
def evolveChunks (chunks : List Chunk) (events : List Event) (dt : ETime) :
    Except String (List Chunk) :=
  if events = [] then .ok chunks
  else if 1 < (events.map (·.r0)).dedup.length then .error "multiple r0s"
  else .ok (chunks.flatMap (evolveChunk events dt))

/-! ## `normalizeGodView` and `stepGodView` -/

/-- `normalizeGodView` from the source: normalize the chunks (with forced
splits at the departure points of the currently-discoverable non-past
events), normalize the past boxes, and check that every box is a
positive-length, strictly-past interval. -/
def normalizeGodView (gv : GodView) : Except String GodView := do
  let evs ← getNonPastEvents gv
  let chunks ← normalizeChunks gv.chunks (evs.map (·.departH0))
  let past := normalizeBoxes gv.past
  match past.find? (fun b => decide (b.rf ≤ b.start.r0) || decide (gv.now < b.rf)) with
  | some _ => .error "bad box: zero or negative length, or not in the past"
  | none => pure { rules := gv.rules, now := gv.now, chunks := chunks, past := past }

/-- `stepGodView` from the source: one atomic transition of the engine. -/
def stepGodView (gv : GodView) : Except String GodView := do
  let gv1 ← normalizeGodView gv
  let stepUntil ← getNextInterestingTime gv1
  let dt := stepUntil - gv1.now
  let events ← getNonPastEvents gv1
  let immEvents := events.filter (fun e => decide (e.r0 = gv1.now))
  let immArrivalHypertimes := immEvents.map (·.arriveH0)
  let newChunks ← evolveChunks gv1.chunks
    (immEvents.filter (fun e => decide (e.departH0 ∉ immArrivalHypertimes))) dt
  let newPast := gv1.past ++ immEvents.map (fun e =>
    ({ start := { tripId := e.tripId, r0 := e.r0, departH0 := e.departH0,
                  arriveH0 := e.arriveH0 },
       rf := e.r0 + dt } : Box))
  normalizeGodView { rules := gv1.rules, now := stepUntil, chunks := newChunks,
                     past := newPast }

/-- Modelled from the spec: `evolveUntil(targetTime, initial)` is the Driver
(§4.6).  Its definition is absent from `src/` (only its tests refer to it);
per the spec it "repeatedly applies the Step Function while `now < targetTime`
and `now` is finite".  `fuel` bounds the number of iterations, which the
spec leaves implicit; every claim below about `evolveUntil` concerns a run
that terminates well inside the supplied fuel. -/
def evolveUntil (fuel : Nat) (target : ETime) (gv : GodView) : Except String GodView :=
  match fuel with
  | 0 => .ok gv
  | Nat.succ n =>
    if gv.now < target ∧ gv.now ≠ ETime.inf then
      match stepGodView gv with
      | .error e => .error e
      | .ok gv' => evolveUntil n target gv'
    else .ok gv

/-! ## Spec-side reference definitions

These are written from the spec's words, to be compared with the
source-derived functions above. -/

/-- Written from the spec (§4.1) and claim C7: "sorts by start, then merges
adjacent chunks whose histories are equal — unless the shared boundary
hypertime is in `forceSplitAt`, in which case the merge is suppressed for
that boundary only." -/
def specMergeAdjacent (forceSplitAt : List ETime) : List Chunk → List Chunk
  | [] => []
  | [c] => [c]
  | c1 :: c2 :: rest =>
    if c1.end_ = c2.start ∧ c1.history = c2.history ∧ c2.start ∉ forceSplitAt
    then specMergeAdjacent forceSplitAt ({ c1 with end_ := c2.end_ } :: rest)
    else c1 :: specMergeAdjacent forceSplitAt (c2 :: rest)
termination_by l => l.length

/-- Written from the spec (§4.2) and claim C6: the chained lookahead.  When a
trip departs exactly now with `arriveH0 ≥ 0`, look up the chunk containing
`arriveH0`, take the trips keyed by that chunk's history plus the departing
trip's id, compute each candidate `r0' = departureRealTime(arriveH0,
T2.depart)`, skip it when `r0' ≤ now`, and otherwise emit an event carrying
the original chunk's start (not `arriveH0`) as `departH0` and
`arrivalHypertime(r0', T2.arrive)` as its arrival.  No deeper chaining is
performed. -/
def specChainedLookahead (gv : GodView) (c : Chunk) (t : Trip) :
    Except String (List Event) :=
  let r0 := hc2rt c.start t.depart
  let arriveH0 := rc2ht r0 t.arrive
  if r0 = gv.now ∧ ETime.fin 0 ≤ arriveH0 then
    match gv.chunks.find? (fun cc => decide (cc.start ≤ arriveH0) && decide (arriveH0 < cc.end_)) with
    | none => .error "no chunk contains arriveH0"
    | some arrivalChunk =>
      .ok ((gv.rules (insert t.id arrivalChunk.history)).filterMap fun t2 =>
        let r0Next := hc2rt arriveH0 t2.depart
        if r0Next ≤ gv.now then none
        else some { tripId := t2.id, r0 := r0Next, departH0 := c.start,
                    arriveH0 := rc2ht r0Next t2.arrive })
  else .ok []

/-- Written from the spec (§4.2): one trip's contribution to event discovery —
skip if strictly past, emit the trip's event, then exactly one level of
chained lookahead. -/
def specEventsForTrip (gv : GodView) (c : Chunk) (t : Trip) :
    Except String (List Event) :=
  let r0 := hc2rt c.start t.depart
  if r0 < gv.now then .ok []
  else do
    let chained ← specChainedLookahead gv c t
    pure ({ tripId := t.id, r0 := r0, departH0 := c.start,
            arriveH0 := rc2ht r0 t.arrive } :: chained)

/-- Written from the spec (§4.2): event discovery over every chunk and every
trip keyed by exactly that chunk's history. -/
def specNonPastEvents (gv : GodView) : Except String (List Event) :=
  (exMapM (fun c =>
      (exMapM (specEventsForTrip gv c) (gv.rules c.history)).map List.flatten)
    gv.chunks).map List.flatten

/-! ## Predicates used in the claims -/

/-- Membership of a hypertime coordinate in a chunk's half-open interval. -/
def inChunk (c : Chunk) (h : ETime) : Prop := c.start ≤ h ∧ h < c.end_

instance (c : Chunk) (h : ETime) : Decidable (inChunk c h) :=
  inferInstanceAs (Decidable (And _ _))

/-- The trip ids whose arrival bands of width `dt` cover hypertime `h` and
whose arrival points fall inside chunk `c` — per the spec (§4.4), exactly
the travelers a point of `c` has received after one evolution step. -/
def arrivalTags (c : Chunk) (events : List Event) (dt : ETime) (h : ETime) :
    Finset String :=
  ((events.filter (fun e =>
      decide (inChunk c e.arriveH0) && decide (e.arriveH0 ≤ h)
        && decide (h < e.arriveH0 + dt))).map (·.tripId)).toFinset

/-- The trip ids among `es` whose arrival bands of width `dt` cover `h`
(no chunk condition; used to state the evolution of one chunk whose
arrivals have already been filtered). -/
def bandTags (es : List Event) (dt : ETime) (h : ETime) : Finset String :=
  ((es.filter (fun e => decide (e.arriveH0 ≤ h) && decide (h < e.arriveH0 + dt))).map
    (·.tripId)).toFinset

/-- The end of the last chunk, threaded through a head element. -/
def lastEnd : Chunk → List Chunk → ETime
  | c, [] => c.end_
  | _, c :: rest => lastEnd c rest

/-- Well-formedness of a chunk partition from coordinate `a` on: consecutive
half-open intervals of positive length, reaching `+Infinity`. -/
def chainedFrom (a : ETime) : List Chunk → Prop
  | [] => False
  | [c] => c.start = a ∧ a < c.end_ ∧ c.end_ = ETime.inf
  | c :: rest => c.start = a ∧ a < c.end_ ∧ chainedFrom c.end_ rest

/-- The full partition invariant of claim C1 except the adjacent-history
condition: sorted, gap-free, starting at 0, ending at `+Infinity`, with no
zero- or negative-length members. -/
def chunksWF (cs : List Chunk) : Prop := chainedFrom (ETime.fin 0) cs

/-- Two boxes of the same trip that abut in real time: the earlier one ends
exactly where the later one starts. -/
def abuts (b1 b2 : Box) : Prop :=
  b1.start.tripId = b2.start.tripId ∧ b1.rf = b2.start.r0

/-- The preemption blocker of `normalizeBoxes`: `b`'s arrival hypertime lies
inside `nb`'s departure band. -/
def blocks (b nb : Box) : Prop :=
  nb.start.departH0 ≤ b.start.arriveH0
    ∧ b.start.arriveH0 < nb.start.departH0 + (nb.rf - nb.start.r0)

/-- The box-log invariant that `normalizeBoxes` actually guarantees: any two
abutting same-trip boxes are separated by a box whose arrival hypertime lies
in the later box's departure band (the preemption blocker that suppressed
the merge). -/
def noUnblockedAbut (l : List Box) : Prop :=
  ∀ i j : Nat, i < j → ∀ bi bj : Box, l[i]? = some bi → l[j]? = some bj →
    abuts bi bj →
    ∃ k bk, i < k ∧ k < j ∧ l[k]? = some bk ∧ blocks bk bj

/-! ## Observers for stating concrete results -/

/-- The past log of a successful result. -/
def resultPast : Except String GodView → Option (List Box)
  | .ok gv => some gv.past
  | .error _ => none

/-- The clock of a successful result. -/
def resultNow : Except String GodView → Option ETime
  | .ok gv => some gv.now
  | .error _ => none

/-- The chunk list of a successful result. -/
def resultChunks : Except String GodView → Option (List Chunk)
  | .ok gv => some gv.chunks
  | .error _ => none

/-- A successful `Except`-wrapped time. -/
def resultTime : Except String ETime → Option ETime
  | .ok t => some t
  | .error _ => none

/-! ## Concrete example states used by the claims -/

/-- The single full-universe chunk `[0, ∞)` with empty history. -/
def chunkFull : Chunk := { start := ETime.fin 0, end_ := ETime.inf, history := ∅ }

/-- The chunk `[0, 5)` with empty history. -/
def chunkLow : Chunk := { start := ETime.fin 0, end_ := ETime.fin 5, history := ∅ }

/-- The chunk `[5, ∞)` with empty history. -/
def chunkHigh : Chunk := { start := ETime.fin 5, end_ := ETime.inf, history := ∅ }

/-- The trip of spec §8 concrete scenario 3: `{id:'a', depart:5, arrive:3}`. -/
def tripScenario3 : Trip := { id := "a", depart := 5, arrive := 3 }

/-- The GodView of spec §8 concrete scenario 3: `now = 5`, a single chunk
`[0, ∞)` with empty history, empty past, ruleset `{} -> [a,5,3]`. -/
def gvScenario3 : GodView :=
  { rules := fun h => if h = ∅ then [tripScenario3] else []
    now := ETime.fin 5
    chunks := [chunkFull]
    past := [] }

/-- The trip of spec §8 concrete scenario 4: `{id:'a', depart:3, arrive:1}`. -/
def tripScenario4 : Trip := { id := "a", depart := 3, arrive := 1 }

/-- The initial GodView of spec §8 concrete scenario 4. -/
def gvScenario4 : GodView :=
  { rules := fun h => if h = ∅ then [tripScenario4] else []
    now := ETime.fin 0
    chunks := [chunkFull]
    past := [] }

/-- The five boxes that scenario 4 must produce. -/
def boxesScenario4 : List Box :=
  [ { start := { tripId := "a", r0 := ETime.fin 3, departH0 := ETime.fin 0,
                 arriveH0 := ETime.fin 2 }, rf := ETime.fin 5 },
    { start := { tripId := "a", r0 := ETime.fin 7, departH0 := ETime.fin 4,
                 arriveH0 := ETime.fin 6 }, rf := ETime.fin 9 },
    { start := { tripId := "a", r0 := ETime.fin 11, departH0 := ETime.fin 8,
                 arriveH0 := ETime.fin 10 }, rf := ETime.fin 13 },
    { start := { tripId := "a", r0 := ETime.fin 15, departH0 := ETime.fin 12,
                 arriveH0 := ETime.fin 14 }, rf := ETime.fin 17 },
    { start := { tripId := "a", r0 := ETime.fin 19, departH0 := ETime.fin 16,
                 arriveH0 := ETime.fin 18 }, rf := ETime.fin 21 } ]

/-- A state whose step exhibits a forced split surviving in the output: the
ruleset maps the empty history to a trip departing at calendar offset 10,
and the chunk list is split at hypertime 5 with equal histories on both
sides. -/
def gvSplit : GodView :=
  { rules := fun h => if h = ∅ then [{ id := "a", depart := 10, arrive := 0 }] else []
    now := ETime.fin 0
    chunks := [chunkLow, chunkHigh]
    past := [] }

/-- The state `stepGodView` returns on `gvSplit`: the clock advanced to the
next event time 10, and the forced split at hypertime 5 survived. -/
def gvSplitStepped : GodView :=
  { rules := gvSplit.rules, now := ETime.fin 10, chunks := [chunkLow, chunkHigh], past := [] }

/-- A quiescent state at `now = +Infinity` whose chunk list is not
normalized: the two chunks carry equal histories and would merge. -/
def gvInfSplit : GodView :=
  { rules := fun _ => []
    now := ETime.inf
    chunks := [chunkLow, chunkHigh]
    past := [] }

/-- A normalized quiescent state at `now = +Infinity`. -/
def gvInfOne : GodView :=
  { rules := fun _ => []
    now := ETime.inf
    chunks := [chunkFull]
    past := [] }

/-- First box of the abutting-boxes example: trip `a` transits `[0, 5)`. -/
def boxA : Box :=
  { start := { tripId := "a", r0 := ETime.fin 0, departH0 := ETime.fin 50,
               arriveH0 := ETime.fin 10 }, rf := ETime.fin 5 }

/-- Second box of the abutting-boxes example: trip `b`, whose arrival
hypertime 0 lies inside the third box's departure band `[0, 1)`. -/
def boxB : Box :=
  { start := { tripId := "b", r0 := ETime.fin 1, departH0 := ETime.fin 100,
               arriveH0 := ETime.fin 0 }, rf := ETime.fin 2 }

/-- Third box of the abutting-boxes example: trip `a` again, transiting
`[5, 6)` — abutting `boxA`. -/
def boxC : Box :=
  { start := { tripId := "a", r0 := ETime.fin 5, departH0 := ETime.fin 0,
               arriveH0 := ETime.fin 77 }, rf := ETime.fin 6 }

/-- A sample immediate event: trip `a` departing now from hypertime 0,
arriving at hypertime 2. -/
def eventSample : Event :=
  { tripId := "a", r0 := ETime.fin 3, departH0 := ETime.fin 0, arriveH0 := ETime.fin 2 }

/-- A valid state whose past holds two abutting same-trip boxes separated by
a blocker box. -/
def gvBoxes : GodView :=
  { rules := fun _ => []
    now := ETime.fin 10
    chunks := [chunkFull]
    past := [boxA, boxB, boxC] }

/-- The state `normalizeGodView` returns on `gvBoxes`: everything unchanged
(the chunk list and box list are already normal forms). -/
def gvBoxesNorm : GodView :=
  { rules := gvBoxes.rules, now := ETime.fin 10, chunks := [chunkFull],
    past := [boxA, boxB, boxC] }

/-! # Theorems -/

/-! ## Basic `ETime` lemmas -/

namespace ETime

@[simp] theorem fin_le_fin {a b : Int} : fin a ≤ fin b ↔ a ≤ b := by
  show toW (fin a) ≤ toW (fin b) ↔ a ≤ b
  simp [toW]

@[simp] theorem fin_lt_fin {a b : Int} : fin a < fin b ↔ a < b := by
  show toW (fin a) < toW (fin b) ↔ a < b
  simp [toW]

@[simp] theorem le_inf (a : ETime) : a ≤ inf := by
  show toW a ≤ toW inf
  cases a <;> simp [toW]

@[simp] theorem not_inf_lt (a : ETime) : ¬ inf < a := by
  show ¬ toW inf < toW a
  cases a <;> simp [toW]

@[simp] theorem not_inf_le_fin {a : Int} : ¬ inf ≤ fin a := by
  show ¬ toW inf ≤ toW (fin a)
  simp [toW]

@[simp] theorem fin_lt_inf {a : Int} : fin a < inf := by
  show toW (fin a) < toW inf
  simp [toW]

theorem inf_le_iff {a : ETime} : inf ≤ a ↔ a = inf := by
  cases a <;> simp

theorem lt_inf_iff {a : ETime} : a < inf ↔ a ≠ inf := by
  cases a <;> simp

@[simp] theorem fin_add_fin {a b : Int} : fin a + fin b = fin (a + b) := rfl
@[simp] theorem inf_add (a : ETime) : inf + a = inf := by cases a <;> rfl
@[simp] theorem add_inf (a : ETime) : a + inf = inf := by cases a <;> rfl
@[simp] theorem fin_sub_fin {a b : Int} : fin a - fin b = fin (a - b) := rfl
@[simp] theorem inf_sub (a : ETime) : inf - a = inf := by cases a <;> rfl

/-- A nonnegative step forward never goes backward. -/
theorem le_add_of_nonneg {a t : ETime} (ht : fin 0 ≤ t) : a ≤ a + t := by
  cases a with
  | inf => simp
  | fin n =>
    cases t with
    | inf => simp
    | fin m =>
      simp only [fin_add_fin, fin_le_fin]
      simp only [fin_le_fin] at ht
      omega

/-- The self-intersection candidate `now + a - d` is at least `now` when
`d < a`. -/
theorem le_add_sub {now a d : ETime} (h : d < a) : now ≤ now + a - d := by
  cases d with
  | inf => simp at h
  | fin dn =>
    cases a with
    | inf =>
      cases now <;> simp [HSub.hSub, Sub.sub, sub]
    | fin an =>
      cases now with
      | inf => simp
      | fin nn =>
        simp only [fin_add_fin, fin_sub_fin, fin_le_fin]
        simp only [fin_lt_fin] at h
        omega

/-- Widening the subtrahend-free band: the bound `d + (rf - r)` is monotone
in `rf` when the other operands are fixed. -/
theorem add_sub_mono {d r rf1 rf2 : ETime} (h : rf1 ≤ rf2) :
    d + (rf1 - r) ≤ d + (rf2 - r) := by
  cases d with
  | inf => simp
  | fin dn =>
    cases r with
    | inf =>
      cases rf1 <;> cases rf2 <;> simp [HSub.hSub, Sub.sub, sub]
    | fin rn =>
      cases rf1 with
      | inf =>
        rw [inf_le_iff.mp h]
      | fin a1 =>
        cases rf2 with
        | inf => simp
        | fin a2 =>
          simp only [fin_sub_fin, fin_add_fin, fin_le_fin]
          simp only [fin_le_fin] at h
          omega

end ETime

/-! ## Sorting lemmas -/

theorem mem_insertByKey (key : α → ETime) (c : α) (l : List α) (a : α) :
    a ∈ insertByKey key c l ↔ a = c ∨ a ∈ l := by
  induction l with
  | nil => simp [insertByKey]
  | cons d rest ih =>
    simp only [insertByKey]
    split
    · simp only [List.mem_cons, ih]
      try tauto
    · simp only [List.mem_cons]
      try tauto

theorem mem_sortByKey (key : α → ETime) (l : List α) (a : α) :
    a ∈ sortByKey key l ↔ a ∈ l := by
  induction l with
  | nil => simp [sortByKey]
  | cons d rest ih =>
    simp only [sortByKey, List.foldr] at *
    rw [mem_insertByKey]
    simp [ih]

theorem pairwise_insertByKey (key : α → ETime) (c : α) (l : List α)
    (h : l.Pairwise (fun a b => key a ≤ key b)) :
    (insertByKey key c l).Pairwise (fun a b => key a ≤ key b) := by
  induction l with
  | nil => simp [insertByKey]
  | cons d rest ih =>
    simp only [insertByKey]
    rcases List.pairwise_cons.mp h with ⟨hd, hrest⟩
    split
    · refine List.pairwise_cons.mpr ⟨?_, ih hrest⟩
      intro b hb
      rcases (mem_insertByKey key c rest b).mp hb with rfl | hb
      · exact le_of_lt (by assumption)
      · exact hd b hb
    · refine List.pairwise_cons.mpr ⟨?_, h⟩
      intro b hb
      rcases List.mem_cons.mp hb with rfl | hb
      · exact le_of_not_lt (by assumption)
      · exact le_trans (le_of_not_lt (by assumption)) (hd b hb)

theorem pairwise_sortByKey (key : α → ETime) (l : List α) :
    (sortByKey key l).Pairwise (fun a b => key a ≤ key b) := by
  induction l with
  | nil => simp [sortByKey]
  | cons d rest ih => exact pairwise_insertByKey key d _ ih

/-! ## `Except` and `exMapM` lemmas -/

@[simp] theorem exBind_ok (a : α) (f : α → Except String β) :
    (Except.ok a >>= f) = f a := rfl

@[simp] theorem exBind_error (e : String) (f : α → Except String β) :
    ((Except.error e : Except String α) >>= f) = Except.error e := rfl

@[simp] theorem exPure_eq (a : α) : (pure a : Except String α) = Except.ok a := rfl

@[simp] theorem exMap_ok (f : α → β) (a : α) :
    Except.map f (Except.ok a : Except String α) = Except.ok (f a) := rfl

@[simp] theorem exMap_error (f : α → β) (e : String) :
    Except.map f (Except.error e : Except String α) = Except.error e := rfl

theorem exMapM_ok_mem {f : α → Except String β} {l : List α} {ys : List β}
    (h : exMapM f l = .ok ys) (a : α) (ha : a ∈ l) : ∃ y ∈ ys, f a = .ok y := by
  induction l generalizing ys with
  | nil => cases ha
  | cons x xs ih =>
    simp only [exMapM] at h
    cases hx : f x with
    | error e => rw [hx] at h; simp at h
    | ok y =>
      rw [hx] at h
      cases hxs : exMapM f xs with
      | error e => rw [hxs] at h; simp at h
      | ok ys' =>
        rw [hxs] at h
        simp only [exBind_ok, exPure_eq, Except.ok.injEq] at h
        subst h
        rcases List.mem_cons.mp ha with rfl | ha
        · exact ⟨y, List.mem_cons_self _ _, hx⟩
        · rcases ih hxs ha with ⟨y', hy', hfy'⟩
          exact ⟨y', List.mem_cons_of_mem _ hy', hfy'⟩

theorem exMapM_ok_elems {f : α → Except String β} {l : List α} {ys : List β}
    (h : exMapM f l = .ok ys) (y : β) (hy : y ∈ ys) : ∃ a ∈ l, f a = .ok y := by
  induction l generalizing ys with
  | nil =>
    simp only [exMapM, Except.ok.injEq] at h
    subst h
    cases hy
  | cons x xs ih =>
    simp only [exMapM] at h
    cases hx : f x with
    | error e => rw [hx] at h; simp at h
    | ok y' =>
      rw [hx] at h
      cases hxs : exMapM f xs with
      | error e => rw [hxs] at h; simp at h
      | ok ys' =>
        rw [hxs] at h
        simp only [exBind_ok, exPure_eq, Except.ok.injEq] at h
        subst h
        rcases List.mem_cons.mp hy with rfl | hy
        · exact ⟨x, List.mem_cons_self _ _, hx⟩
        · rcases ih hxs hy with ⟨a, ha, hfa⟩
          exact ⟨a, List.mem_cons_of_mem _ ha, hfa⟩

theorem exMapM_ok_of_all {f : α → Except String β} {l : List α}
    (h : ∀ a ∈ l, ∃ y, f a = .ok y) : ∃ ys, exMapM f l = .ok ys := by
  induction l with
  | nil => exact ⟨[], rfl⟩
  | cons x xs ih =>
    rcases h x (List.mem_cons_self _ _) with ⟨y, hy⟩
    rcases ih (fun a ha => h a (List.mem_cons_of_mem _ ha)) with ⟨ys, hys⟩
    exact ⟨y :: ys, by simp [exMapM, hy, hys]⟩

theorem exMapM_congr {f g : α → Except String β} {l : List α}
    (h : ∀ a ∈ l, f a = g a) : exMapM f l = exMapM g l := by
  induction l with
  | nil => rfl
  | cons x xs ih =>
    simp only [exMapM]
    rw [h x (List.mem_cons_self _ _), ih (fun a ha => h a (List.mem_cons_of_mem _ ha))]

theorem exMapM_all_nil {f : α → Except String (List β)} {l : List α}
    (h : ∀ a ∈ l, f a = .ok []) : exMapM f l = .ok (l.map (fun _ => [])) := by
  induction l with
  | nil => rfl
  | cons x xs ih =>
    simp [exMapM, h x (List.mem_cons_self _ _),
      ih (fun a ha => h a (List.mem_cons_of_mem _ ha))]

/-! ## Claim C9: the time conversions are mutual inverses -/

/-- Claim C9: for every hypertime `h` and calendar offset `c`,
`arrivalHypertime(departureRealTime(h, c), c) = h` — i.e.
`rc2ht (hc2rt h c) c = h`: the two time-domain conversions are mutual
inverses given the same `c`. -/
theorem claim9_conversion_roundtrip (h : ETime) (c : Int) :
    rc2ht (hc2rt h c) c = h := by
  cases h with
  | fin n => simp [hc2rt, rc2ht]
  | inf => simp [hc2rt, rc2ht]

/-! ## Claim C3: scenario 3's next interesting time -/

/-- Claim C3: for the GodView whose ruleset maps the empty history to the
single trip `{id:'a', depart:5, arrive:3}`, with `now = 5`, a single chunk
`[0, ∞)` with empty history and empty past, `getNextInterestingTime`
returns 7 — the self-intersection bound `now + (arriveH0 − departH0) =
5 + (2 − 0)`, not the naive departure-chunk-end bound (which is
`+Infinity` here). -/
theorem claim3_self_intersection_time :
    resultTime (getNextInterestingTime gvScenario3) = some (ETime.fin 7) := by
  decide

/-! ## Claim C4: scenario 4's repeating stripes -/

/-- Claim C4: driving the initial GodView (`now = 0`, single empty-history
chunk, empty past) under ruleset `{} -> [{id:'a', depart:3, arrive:1}]` to
target real time 20 yields exactly five boxes: trip `a` transiting
`[3,5)`, `[7,9)`, `[11,13)`, `[15,17)` and `[19,21)` with `departH0` values
0, 4, 8, 12, 16 and each `arriveH0 = departH0 + 2`; the final clock is 21,
so the last box ends exactly at the final `now`.  (`evolveUntil` is
modelled from the spec, as its definition is absent from `src/`.) -/
theorem claim4_repeating_stripes :
    resultPast (evolveUntil 40 (ETime.fin 20) gvScenario4) = some boxesScenario4
      ∧ resultNow (evolveUntil 40 (ETime.fin 20) gvScenario4) = some (ETime.fin 21) := by
  constructor <;> decide

/-! ## Counterexamples to claims C1, C2 and C10 as literally stated -/

/-- Claim C1 counterexample: `stepGodView` succeeds on `gvSplit` and returns
a chunk list containing two adjacent chunks (`[0,5)` and `[5,∞)`) that share
the identical (empty) history: the forced split at the departure point of
the still-discoverable event at hypertime 5 suppresses the merge.  This
refutes the unconditional "no two adjacent chunks share identical history"
part of the claim. -/
theorem claim1_counterexample :
    resultChunks (stepGodView gvSplit) = some [chunkLow, chunkHigh]
      ∧ chunkLow.end_ = chunkHigh.start
      ∧ chunkLow.history = chunkHigh.history := by
  refine ⟨by decide, rfl, rfl⟩

/-- Claim C2 counterexample: `gvInfSplit` has `now = +Infinity` and
`stepGodView` succeeds on it, but the returned state is not identical to the
input — its chunk list is the merged `[0,∞)` while the input's was split in
two.  Stepping a state with `now = +Infinity` is therefore not a no-op for
every such state. -/
theorem claim2_counterexample :
    gvInfSplit.now = ETime.inf
      ∧ resultChunks (stepGodView gvInfSplit) = some [chunkFull]
      ∧ gvInfSplit.chunks ≠ [chunkFull] := by
  refine ⟨rfl, by decide, by decide⟩

/-- Claim C10 counterexample: `normalizeGodView` succeeds on `gvBoxes` and
returns a past log in which `boxA` and `boxC` have the same trip id and
`boxA.rf = boxC.start.r0` — two abutting same-trip boxes that were not
merged, because `findLastIndex` found the later `boxB` (whose arrival
hypertime 0 lies inside `boxC`'s departure band `[0,1)`) instead of `boxA`. -/
theorem claim10_counterexample :
    resultPast (normalizeGodView gvBoxes) = some [boxA, boxB, boxC]
      ∧ boxA.start.tripId = boxC.start.tripId
      ∧ boxA.rf = boxC.start.r0 := by
  refine ⟨by decide, rfl, rfl⟩

/-! ## `normalizeChunks`: inversion, claim C8 and claim C7 -/

theorem exMap_ok_inv {x : Except String α} {f : α → β} {y : β}
    (h : x.map f = .ok y) : ∃ a, x = .ok a ∧ y = f a := by
  cases x with
  | error e => simp at h
  | ok a => exact ⟨a, rfl, by simpa using h.symm⟩

/-- Successful `normalizeChunks` runs have passed every validity check. -/
theorem normalizeChunks_ok_inv {cs : List Chunk} {nj : List ETime} {out : List Chunk}
    (h : normalizeChunks cs nj = .ok out) :
    ∃ c0 rest, sortByKey (fun c => c.start) cs = c0 :: rest
      ∧ c0.start = ETime.fin 0
      ∧ (List.getLast (c0 :: rest) (by simp)).end_ = ETime.inf
      ∧ (∀ c ∈ c0 :: rest, c.start < c.end_)
      ∧ joinChunks nj c0 rest = .ok out := by
  unfold normalizeChunks at h
  split at h
  · simp at h
  · rename_i c0 rest heq
    split_ifs at h with h1 h2 h3
    · refine ⟨c0, rest, heq, not_not.mp (by simpa using h1),
        not_not.mp (by simpa using h2), ?_, h⟩
      intro c hc
      have := List.any_eq_false.mp (Bool.eq_false_iff.mpr h3) c hc
      simp only [decide_eq_true_eq] at this
      exact lt_of_not_le this

/-- Claim C8: `normalizeChunks` fails (returns an error, no value) whenever
the input list is empty, or the first chunk after sorting does not start at
0, or the last chunk after sorting does not end at `+Infinity`, or some
chunk has zero or negative length. -/
theorem claim8_invariant_errors (cs : List Chunk) (nj : List ETime)
    (hbad : cs = []
      ∨ (∃ c0 rest, sortByKey (fun c => c.start) cs = c0 :: rest ∧ c0.start ≠ ETime.fin 0)
      ∨ (∃ c, (sortByKey (fun c => c.start) cs).getLast? = some c ∧ c.end_ ≠ ETime.inf)
      ∨ (∃ c ∈ cs, c.end_ ≤ c.start)) :
    ∃ msg, normalizeChunks cs nj = .error msg := by
  cases hres : normalizeChunks cs nj with
  | error msg => exact ⟨msg, rfl⟩
  | ok out =>
    exfalso
    rcases normalizeChunks_ok_inv hres with ⟨c0, rest, hs, h0, hl, hpos, _⟩
    rcases hbad with hempty | ⟨c0', rest', hs', hne⟩ | ⟨c, hc, hne⟩ | ⟨c, hc, hle⟩
    · rw [hempty] at hs
      simp [sortByKey] at hs
    · rw [hs] at hs'
      cases hs'
      exact hne h0
    · rw [hs, List.getLast?_eq_getLast _ (by simp)] at hc
      cases hc
      exact hne hl
    · have : c ∈ c0 :: rest := by
        rw [← hs, mem_sortByKey]
        exact hc
      exact absurd hle (not_le.mpr (hpos c this))

/-- Claim C8 witness: the empty chunk list makes `normalizeChunks` fail. -/
theorem claim8_witness : ∃ msg, normalizeChunks [] [] = .error msg :=
  claim8_invariant_errors [] [] (Or.inl rfl)

/-- On the success path the merge loop agrees with the spec-side
sort-then-merge description. -/
theorem joinChunks_eq_specMerge {nj : List ETime} :
    ∀ {rest : List Chunk} {prev : Chunk} {out : List Chunk},
      joinChunks nj prev rest = .ok out → out = specMergeAdjacent nj (prev :: rest) := by
  intro rest
  induction rest with
  | nil =>
    intro prev out h
    simp only [joinChunks, Except.ok.injEq] at h
    subst h
    simp [specMergeAdjacent]
  | cons c rest ih =>
    intro prev out h
    simp only [joinChunks] at h
    by_cases hgap : c.start = prev.end_
    · rw [if_neg (by simpa using hgap)] at h
      by_cases hmerge : c.history = prev.history ∧ c.start ∉ nj
      · rw [if_pos hmerge] at h
        have := ih h
        rw [this]
        rw [specMergeAdjacent]
        rw [if_pos ⟨hgap.symm, hmerge.1.symm, hmerge.2⟩]
      · rw [if_neg hmerge] at h
        rcases exMap_ok_inv h with ⟨out', hout', rfl⟩
        have := ih hout'
        rw [this]
        rw [specMergeAdjacent, if_neg]
        intro ⟨_, hh, hn⟩
        exact hmerge ⟨hh.symm, hn⟩
    · rw [if_pos (by simpa using hgap)] at h
      simp at h

/-- Claim C7: for every chunk list and force-split set on which it succeeds,
`normalizeChunks` returns exactly the result of sorting the chunks by start
and then merging every adjacent pair with equal histories, except that a
merge is suppressed when the shared boundary is in the force-split set. -/
theorem claim7_sort_then_merge {cs : List Chunk} {nj : List ETime} {out : List Chunk}
    (h : normalizeChunks cs nj = .ok out) :
    out = specMergeAdjacent nj (sortByKey (fun c => c.start) cs) := by
  rcases normalizeChunks_ok_inv h with ⟨c0, rest, hs, _, _, _, hjoin⟩
  rw [hs]
  exact joinChunks_eq_specMerge hjoin

/-- Claim C7 witness: at the split partition `[0,5)`, `[5,∞)` with equal
histories and the boundary 5 force-split, `normalizeChunks` succeeds and
returns exactly the spec-side sort-then-merge result (which keeps the two
chunks separate). -/
theorem claim7_witness :
    [chunkLow, chunkHigh]
      = specMergeAdjacent [ETime.fin 5] (sortByKey (fun c => c.start) [chunkLow, chunkHigh]) :=
  claim7_sort_then_merge (by decide)

/-! ## Well-formedness facts about `joinChunks` and `chainedFrom` -/

theorem lastEnd_eq_getLast (c : Chunk) (l : List Chunk) :
    lastEnd c l = (List.getLast (c :: l) (by simp)).end_ := by
  induction l generalizing c with
  | nil => rfl
  | cons d rest ih => rw [lastEnd, List.getLast_cons (by simp)]; exact ih d

theorem lastEnd_irrel (a b : Chunk) {l : List Chunk} (h : l ≠ []) :
    lastEnd a l = lastEnd b l := by
  cases l with
  | nil => exact absurd rfl h
  | cons c rest => rfl

theorem chainedFrom_ne_nil {a : ETime} {l : List Chunk} (h : chainedFrom a l) : l ≠ [] := by
  cases l with
  | nil => exact absurd h (by simp [chainedFrom])
  | cons c rest => simp

theorem chainedFrom_pos {a : ETime} {l : List Chunk} (h : chainedFrom a l) :
    ∀ c ∈ l, c.start < c.end_ := by
  induction l generalizing a with
  | nil => cases h
  | cons c rest ih =>
    intro d hd
    cases rest with
    | nil =>
      rcases h with ⟨h1, h2, _⟩
      rcases List.mem_singleton.mp hd with rfl
      rw [h1]; exact h2
    | cons c2 rest2 =>
      rcases h with ⟨h1, h2, h3⟩
      rcases List.mem_cons.mp hd with rfl | hd
      · rw [h1]; exact h2
      · exact ih h3 d hd

/-- A chained partition covers every coordinate from its base to infinity. -/
theorem chainedFrom_coverage {a : ETime} {l : List Chunk} (hl : chainedFrom a l)
    {h : ETime} (hah : a ≤ h) (hne : h ≠ ETime.inf) : ∃ c ∈ l, c.start ≤ h ∧ h < c.end_ := by
  induction l generalizing a with
  | nil => cases hl
  | cons c rest ih =>
    cases rest with
    | nil =>
      rcases hl with ⟨h1, _, h3⟩
      exact ⟨c, List.mem_singleton_self c, by rw [h1]; exact hah,
        by rw [h3]; exact ETime.lt_inf_iff.mpr hne⟩
    | cons c2 rest2 =>
      rcases hl with ⟨h1, _, h3⟩
      by_cases hend : h < c.end_
      · exact ⟨c, List.mem_cons_self _ _, by rw [h1]; exact hah, hend⟩
      · rcases ih h3 (le_of_not_lt hend) with ⟨d, hd, hd1, hd2⟩
        exact ⟨d, List.mem_cons_of_mem _ hd, hd1, hd2⟩

/-- A successful merge loop yields a chained partition. -/
theorem joinChunks_wf {nj : List ETime} :
    ∀ {rest : List Chunk} {prev : Chunk} {out : List Chunk},
      joinChunks nj prev rest = .ok out →
      prev.start < prev.end_ → (∀ c ∈ rest, c.start < c.end_) →
      lastEnd prev rest = ETime.inf →
      chainedFrom prev.start out := by
  intro rest
  induction rest with
  | nil =>
    intro prev out h hp _ hlast
    simp only [joinChunks, Except.ok.injEq] at h
    subst h
    exact ⟨rfl, hp, hlast⟩
  | cons c rest ih =>
    intro prev out h hp hr hlast
    simp only [joinChunks] at h
    by_cases hgap : c.start = prev.end_
    · rw [if_neg (by simpa using hgap)] at h
      have hcpos : c.start < c.end_ := hr c (List.mem_cons_self _ _)
      have hlast' : lastEnd { prev with end_ := c.end_ } rest = ETime.inf := by
        cases rest with
        | nil =>
          simp only [lastEnd] at hlast ⊢
          simpa [lastEnd] using hlast
        | cons c2 rest2 => exact hlast
      by_cases hmerge : c.history = prev.history ∧ c.start ∉ nj
      · rw [if_pos hmerge] at h
        have := ih h (by
          show prev.start < c.end_
          exact lt_trans (show prev.start < c.start by rw [hgap]; exact hp) hcpos)
          (fun d hd => hr d (List.mem_cons_of_mem _ hd)) hlast'
        exact this
      · rw [if_neg hmerge] at h
        rcases exMap_ok_inv h with ⟨out', hout', rfl⟩
        have hch := ih hout' hcpos (fun d hd => hr d (List.mem_cons_of_mem _ hd)) hlast
        cases out' with
        | nil => exact absurd rfl (chainedFrom_ne_nil hch)
        | cons o os =>
          exact ⟨rfl, hp, by rw [← hgap]; exact hch⟩
    · rw [if_pos (by simpa using hgap)] at h
      simp at h

/-- The head of a successful merge-loop result keeps the start and history
of the accumulator. -/
theorem joinChunks_head {nj : List ETime} :
    ∀ {rest : List Chunk} {prev : Chunk} {out : List Chunk},
      joinChunks nj prev rest = .ok out →
      ∃ hd tl, out = hd :: tl ∧ hd.start = prev.start ∧ hd.history = prev.history := by
  intro rest
  induction rest with
  | nil =>
    intro prev out h
    simp only [joinChunks, Except.ok.injEq] at h
    subst h
    exact ⟨prev, [], rfl, rfl, rfl⟩
  | cons c rest ih =>
    intro prev out h
    simp only [joinChunks] at h
    by_cases hgap : c.start = prev.end_
    · rw [if_neg (by simpa using hgap)] at h
      by_cases hmerge : c.history = prev.history ∧ c.start ∉ nj
      · rw [if_pos hmerge] at h
        rcases ih h with ⟨hd, tl, rfl, h1, h2⟩
        exact ⟨hd, tl, rfl, h1, h2⟩
      · rw [if_neg hmerge] at h
        rcases exMap_ok_inv h with ⟨out', _, rfl⟩
        exact ⟨prev, out', rfl, rfl, rfl⟩
    · rw [if_pos (by simpa using hgap)] at h
      simp at h

/-- Adjacent equal-history chunks in a successful merge-loop result can only
sit at a boundary in the no-join set. -/
theorem joinChunks_forced {nj : List ETime} :
    ∀ {rest : List Chunk} {prev : Chunk} {out : List Chunk},
      joinChunks nj prev rest = .ok out →
      List.Chain' (fun p q => p.history = q.history → q.start ∈ nj) out := by
  intro rest
  induction rest with
  | nil =>
    intro prev out h
    simp only [joinChunks, Except.ok.injEq] at h
    subst h
    simp
  | cons c rest ih =>
    intro prev out h
    simp only [joinChunks] at h
    by_cases hgap : c.start = prev.end_
    · rw [if_neg (by simpa using hgap)] at h
      by_cases hmerge : c.history = prev.history ∧ c.start ∉ nj
      · rw [if_pos hmerge] at h
        exact ih h
      · rw [if_neg hmerge] at h
        rcases exMap_ok_inv h with ⟨out', hout', rfl⟩
        rcases joinChunks_head hout' with ⟨hd, tl, rfl, h1, h2⟩
        refine List.chain'_cons.mpr ⟨?_, ih hout'⟩
        intro hh
        rw [h1]
        by_contra hcn
        exact hmerge ⟨by rw [← h2, ← hh], hcn⟩
    · rw [if_pos (by simpa using hgap)] at h
      simp at h

/-- Every chunk of a successful merge-loop result originates from an input
chunk with the same start and history. -/
theorem joinChunks_origin {nj : List ETime} :
    ∀ {rest : List Chunk} {prev : Chunk} {out : List Chunk},
      joinChunks nj prev rest = .ok out →
      ∀ p ∈ out, ∃ c ∈ prev :: rest, c.start = p.start ∧ c.history = p.history := by
  intro rest
  induction rest with
  | nil =>
    intro prev out h p hp
    simp only [joinChunks, Except.ok.injEq] at h
    subst h
    rcases List.mem_singleton.mp hp with rfl
    exact ⟨p, List.mem_singleton_self p, rfl, rfl⟩
  | cons c rest ih =>
    intro prev out h p hp
    simp only [joinChunks] at h
    by_cases hgap : c.start = prev.end_
    · rw [if_neg (by simpa using hgap)] at h
      by_cases hmerge : c.history = prev.history ∧ c.start ∉ nj
      · rw [if_pos hmerge] at h
        rcases ih h p hp with ⟨d, hd, h1, h2⟩
        rcases List.mem_cons.mp hd with rfl | hd
        · exact ⟨prev, List.mem_cons_self _ _, h1, h2⟩
        · exact ⟨d, List.mem_cons_of_mem _ (List.mem_cons_of_mem _ hd), h1, h2⟩
      · rw [if_neg hmerge] at h
        rcases exMap_ok_inv h with ⟨out', hout', rfl⟩
        rcases List.mem_cons.mp hp with rfl | hp
        · exact ⟨p, List.mem_cons_self _ _, rfl, rfl⟩
        · rcases ih hout' p hp with ⟨d, hd, h1, h2⟩
          exact ⟨d, List.mem_cons_of_mem _ hd, h1, h2⟩
    · rw [if_pos (by simpa using hgap)] at h
      simp at h

/-- A successful merge loop certifies that the (sorted) input was gap-free. -/
theorem joinChunks_inputChain {nj : List ETime} :
    ∀ {rest : List Chunk} {prev : Chunk} {out : List Chunk},
      joinChunks nj prev rest = .ok out →
      List.Chain' (fun a b => a.end_ = b.start) (prev :: rest) := by
  intro rest
  induction rest with
  | nil =>
    intro prev out h
    simp
  | cons c rest ih =>
    intro prev out h
    simp only [joinChunks] at h
    by_cases hgap : c.start = prev.end_
    · rw [if_neg (by simpa using hgap)] at h
      refine List.chain'_cons.mpr ⟨hgap.symm, ?_⟩
      by_cases hmerge : c.history = prev.history ∧ c.start ∉ nj
      · rw [if_pos hmerge] at h
        have := ih h
        cases rest with
        | nil => simp
        | cons c2 rest2 =>
          rcases List.chain'_cons.mp this with ⟨h1, h2⟩
          exact List.chain'_cons.mpr ⟨h1, h2⟩
      · rw [if_neg hmerge] at h
        rcases exMap_ok_inv h with ⟨out', hout', rfl⟩
        exact ih hout'
    · rw [if_pos (by simpa using hgap)] at h
      simp at h

/-- A membership-aware strengthening of `List.Chain'.imp`. -/
theorem chain_imp_mem {R S : α → α → Prop} :
    ∀ {l : List α}, List.Chain' R l →
      (∀ a ∈ l, ∀ b ∈ l, R a b → S a b) → List.Chain' S l
  | [], _, _ => List.chain'_nil
  | [_], _, _ => by simp
  | a :: b :: l, h, himp => by
    rcases List.chain'_cons.mp h with ⟨hab, hrest⟩
    refine List.chain'_cons.mpr ⟨himp a (List.mem_cons_self _ _) b
      (List.mem_cons_of_mem _ (List.mem_cons_self _ _)) hab, ?_⟩
    exact chain_imp_mem hrest (fun x hx y hy hr =>
      himp x (List.mem_cons_of_mem _ hx) y (List.mem_cons_of_mem _ hy) hr)

/-- Gap-freeness plus positive lengths give strictly increasing starts. -/
theorem chain_pairwise_start_lt :
    ∀ {l : List Chunk}, List.Chain' (fun a b => a.end_ = b.start) l →
      (∀ c ∈ l, c.start < c.end_) →
      l.Pairwise (fun a b => a.start < b.start)
  | [], _, _ => List.Pairwise.nil
  | [_], _, _ => by simp
  | a :: b :: l, h, hpos => by
    rcases List.chain'_cons.mp h with ⟨hab, hrest⟩
    have ihp := chain_pairwise_start_lt hrest
      (fun c hc => hpos c (List.mem_cons_of_mem _ hc))
    refine List.pairwise_cons.mpr ⟨?_, ihp⟩
    intro c hc
    have hab' : a.start < b.start := by
      rw [← hab]; exact hpos a (List.mem_cons_self _ _)
    rcases List.mem_cons.mp hc with rfl | hc
    · exact hab'
    · rcases List.pairwise_cons.mp ihp with ⟨hb, _⟩
      exact lt_trans hab' (hb c hc)

/-- In a start-strictly-sorted list, a start determines its chunk. -/
theorem pairwise_start_inj :
    ∀ {l : List Chunk}, l.Pairwise (fun a b => a.start < b.start) →
      ∀ x ∈ l, ∀ y ∈ l, x.start = y.start → x = y
  | [], _, _, hx, _, _, _ => absurd hx (List.not_mem_nil _)
  | a :: l, h, x, hx, y, hy, hxy => by
    rcases List.pairwise_cons.mp h with ⟨ha, hrest⟩
    rcases List.mem_cons.mp hx with rfl | hx2
    · rcases List.mem_cons.mp hy with rfl | hy2
      · rfl
      · exact absurd (ha y hy2) (not_lt.mpr (le_of_eq hxy.symm))
    · rcases List.mem_cons.mp hy with rfl | hy2
      · exact absurd (ha x hx2) (not_lt.mpr (le_of_eq hxy))
      · exact pairwise_start_inj hrest x hx2 y hy2 hxy

/-! ## Facts about event discovery -/

theorem ne_inf_of_lt {a b : ETime} (h : a < b) : a ≠ ETime.inf := by
  intro hh
  rw [hh] at h
  exact ETime.not_inf_lt b h

/-- Every event of one trip's contribution is non-past. -/
theorem eventsForTrip_r0 {gv : GodView} {c : Chunk} {t : Trip} {l : List Event}
    (h : eventsForTrip gv c t = .ok l) : ∀ e ∈ l, gv.now ≤ e.r0 := by
  intro e he
  simp only [eventsForTrip] at h
  split_ifs at h with h1 h2
  · simp only [Except.ok.injEq] at h
    subst h
    cases he
  · rcases exMap_ok_inv h with ⟨ch, hch, rfl⟩
    rcases List.mem_cons.mp he with rfl | he2
    · exact le_of_not_lt h1
    · unfold chainedEvents at hch
      split at hch
      · simp at hch
      · simp only [Except.ok.injEq] at hch
        subst hch
        rcases List.mem_filterMap.mp he2 with ⟨t2, _, hsome⟩
        split_ifs at hsome with hle
        simp only [Option.some.injEq] at hsome
        subst hsome
        exact le_of_lt (lt_of_not_le hle)
  · simp only [Except.ok.injEq] at h
    subst h
    rcases List.mem_singleton.mp he with rfl
    exact le_of_not_lt h1

/-- Every event of one trip's contribution departs from the chunk's start,
and a nonempty contribution certifies the trip was not skipped. -/
theorem eventsForTrip_departH0 {gv : GodView} {c : Chunk} {t : Trip} {l : List Event}
    (h : eventsForTrip gv c t = .ok l) :
    ∀ e ∈ l, e.departH0 = c.start ∧ ¬(hc2rt c.start t.depart < gv.now) := by
  intro e he
  simp only [eventsForTrip] at h
  split_ifs at h with h1 h2
  · simp only [Except.ok.injEq] at h
    subst h
    cases he
  · rcases exMap_ok_inv h with ⟨ch, hch, rfl⟩
    rcases List.mem_cons.mp he with rfl | he2
    · exact ⟨rfl, h1⟩
    · unfold chainedEvents at hch
      split at hch
      · simp at hch
      · simp only [Except.ok.injEq] at hch
        subst hch
        rcases List.mem_filterMap.mp he2 with ⟨t2, _, hsome⟩
        split_ifs at hsome with hle
        simp only [Option.some.injEq] at hsome
        subst hsome
        exact ⟨rfl, h1⟩
  · simp only [Except.ok.injEq] at h
    subst h
    rcases List.mem_singleton.mp he with rfl
    exact ⟨rfl, h1⟩

/-- An unskipped trip contributes at least its own event. -/
theorem eventsForTrip_primary {gv : GodView} {c : Chunk} {t : Trip} {l : List Event}
    (h : eventsForTrip gv c t = .ok l) (hns : ¬(hc2rt c.start t.depart < gv.now)) :
    ∃ e ∈ l, e.departH0 = c.start := by
  simp only [eventsForTrip, if_neg hns] at h
  split_ifs at h with h2
  · rcases exMap_ok_inv h with ⟨ch, _, rfl⟩
    exact ⟨_, List.mem_cons_self _ _, rfl⟩
  · simp only [Except.ok.injEq] at h
    subst h
    exact ⟨_, List.mem_singleton_self _, rfl⟩

/-- All discovered events are non-past. -/
theorem getNonPastEvents_r0 {gv : GodView} {evs : List Event}
    (h : getNonPastEvents gv = .ok evs) : ∀ e ∈ evs, gv.now ≤ e.r0 := by
  intro e he
  unfold getNonPastEvents at h
  rcases exMap_ok_inv h with ⟨lss, hlss, rfl⟩
  rcases List.mem_flatten.mp he with ⟨lc, hlc, helc⟩
  rcases exMapM_ok_elems hlss lc hlc with ⟨c, _, hgc⟩
  rcases exMap_ok_inv hgc with ⟨ls, hls, rfl⟩
  rcases List.mem_flatten.mp helc with ⟨lt, hlt, helt⟩
  rcases exMapM_ok_elems hls lt hlt with ⟨t, _, hft⟩
  exact eventsForTrip_r0 hft e helt

/-- Every discovered event's departure point is the start of a chunk whose
history keys a trip that is not skipped. -/
theorem getNonPastEvents_origin {gv : GodView} {evs : List Event}
    (h : getNonPastEvents gv = .ok evs) :
    ∀ e ∈ evs, ∃ c ∈ gv.chunks, ∃ t ∈ gv.rules c.history,
      c.start = e.departH0 ∧ ¬(hc2rt c.start t.depart < gv.now) := by
  intro e he
  unfold getNonPastEvents at h
  rcases exMap_ok_inv h with ⟨lss, hlss, rfl⟩
  rcases List.mem_flatten.mp he with ⟨lc, hlc, helc⟩
  rcases exMapM_ok_elems hlss lc hlc with ⟨c, hc, hgc⟩
  rcases exMap_ok_inv hgc with ⟨ls, hls, rfl⟩
  rcases List.mem_flatten.mp helc with ⟨lt, hlt, helt⟩
  rcases exMapM_ok_elems hls lt hlt with ⟨t, ht, hft⟩
  rcases eventsForTrip_departH0 hft e helt with ⟨hdep, hns⟩
  exact ⟨c, hc, t, ht, hdep.symm, hns⟩

/-- Every chunk/trip pair that is not skipped contributes an event departing
from the chunk's start. -/
theorem getNonPastEvents_construct {gv : GodView} {evs : List Event}
    (h : getNonPastEvents gv = .ok evs) {c : Chunk} (hc : c ∈ gv.chunks)
    {t : Trip} (ht : t ∈ gv.rules c.history)
    (hns : ¬(hc2rt c.start t.depart < gv.now)) :
    ∃ e ∈ evs, e.departH0 = c.start := by
  unfold getNonPastEvents at h
  rcases exMap_ok_inv h with ⟨lss, hlss, rfl⟩
  rcases exMapM_ok_mem hlss c hc with ⟨lc, hlc, hgc⟩
  rcases exMap_ok_inv hgc with ⟨ls, hls, rfl⟩
  rcases exMapM_ok_mem hls t ht with ⟨lt, hlt, hft⟩
  rcases eventsForTrip_primary hft hns with ⟨e, helt, hdep⟩
  exact ⟨e, List.mem_flatten.mpr ⟨ls.flatten, hlc, List.mem_flatten.mpr ⟨lt, hlt, helt⟩⟩, hdep⟩

/-- On a well-formed partition, event discovery always succeeds. -/
theorem getNonPastEvents_total {gv : GodView} (hwf : chunksWF gv.chunks) :
    ∃ evs, getNonPastEvents gv = .ok evs := by
  have hpos := chainedFrom_pos hwf
  have hcov := fun {h : ETime} (h0 : ETime.fin 0 ≤ h) (hne : h ≠ ETime.inf) =>
    chainedFrom_coverage hwf h0 hne
  suffices hall : ∀ c ∈ gv.chunks,
      ∃ lc, ((exMapM (eventsForTrip gv c) (gv.rules c.history)).map List.flatten) = .ok lc by
    rcases exMapM_ok_of_all hall with ⟨lss, hlss⟩
    exact ⟨lss.flatten, by unfold getNonPastEvents; rw [hlss]; rfl⟩
  intro c hc
  suffices htr : ∀ t ∈ gv.rules c.history, ∃ lt, eventsForTrip gv c t = .ok lt by
    rcases exMapM_ok_of_all htr with ⟨ls, hls⟩
    exact ⟨ls.flatten, by rw [hls]; rfl⟩
  intro t _
  simp only [eventsForTrip]
  split_ifs with h1 h2
  · exact ⟨[], rfl⟩
  · rcases h2 with ⟨hr0, harr⟩
    have hstart : c.start ≠ ETime.inf := ne_inf_of_lt (hpos c hc)
    have hfin : ∃ n, hc2rt c.start t.depart = ETime.fin n := by
      cases hs : c.start with
      | inf => exact absurd hs hstart
      | fin m => exact ⟨m + t.depart, by simp [hc2rt, hs]⟩
    rcases hfin with ⟨n, hn⟩
    have harrfin : rc2ht (hc2rt c.start t.depart) t.arrive = ETime.fin (n - t.arrive) := by
      rw [hn]; simp [rc2ht]
    have hne : rc2ht (hc2rt c.start t.depart) t.arrive ≠ ETime.inf := by
      rw [harrfin]; simp
    rcases hcov harr hne with ⟨d, hd, hd1, hd2⟩
    have hfind : (gv.chunks.find? (fun cc => decide (cc.start ≤ rc2ht (hc2rt c.start t.depart) t.arrive)
        && decide (rc2ht (hc2rt c.start t.depart) t.arrive < cc.end_))).isSome := by
      rw [List.find?_isSome]
      exact ⟨d, hd, by simp [hd1, hd2]⟩
    unfold chainedEvents
    rcases Option.isSome_iff_exists.mp hfind with ⟨ac, hac⟩
    rw [hac]
    exact ⟨_, rfl⟩
  · exact ⟨_, rfl⟩

/-! ## Inversion of `normalizeGodView` and `stepGodView` -/

/-- What a successful normalization certifies. -/
theorem normalizeGodView_ok_inv {gv gv' : GodView} (h : normalizeGodView gv = .ok gv') :
    ∃ evs chunks, getNonPastEvents gv = .ok evs
      ∧ normalizeChunks gv.chunks (evs.map (·.departH0)) = .ok chunks
      ∧ gv' = { rules := gv.rules, now := gv.now, chunks := chunks,
                past := normalizeBoxes gv.past }
      ∧ ∀ b ∈ normalizeBoxes gv.past, b.start.r0 < b.rf ∧ b.rf ≤ gv.now := by
  unfold normalizeGodView at h
  cases hevs : getNonPastEvents gv with
  | error e => rw [hevs] at h; simp at h
  | ok evs =>
    rw [hevs] at h
    simp only [exBind_ok] at h
    cases hch : normalizeChunks gv.chunks (evs.map (·.departH0)) with
    | error e => rw [hch] at h; simp at h
    | ok chunks =>
      rw [hch] at h
      simp only [exBind_ok] at h
      split at h
      · simp at h
      · rename_i hfind
        simp only [exPure_eq, Except.ok.injEq] at h
        refine ⟨evs, chunks, rfl, hch, h.symm, ?_⟩
        intro b hb
        have := List.find?_eq_none.mp hfind b hb
        simp only [Bool.or_eq_true, decide_eq_true_eq, not_or] at this
        exact ⟨lt_of_not_le this.1, le_of_not_lt this.2⟩

/-- A successful step ends in a successful normalization. -/
theorem stepGodView_ok_inv {gv gv' : GodView} (h : stepGodView gv = .ok gv') :
    ∃ gv1 stepUntil events newChunks,
      normalizeGodView gv = .ok gv1
      ∧ getNextInterestingTime gv1 = .ok stepUntil
      ∧ getNonPastEvents gv1 = .ok events
      ∧ evolveChunks gv1.chunks
          ((events.filter (fun e => decide (e.r0 = gv1.now))).filter
            (fun e => decide (e.departH0 ∉
              (events.filter (fun e => decide (e.r0 = gv1.now))).map (·.arriveH0))))
          (stepUntil - gv1.now) = .ok newChunks
      ∧ normalizeGodView
          { rules := gv1.rules, now := stepUntil, chunks := newChunks,
            past := gv1.past ++ (events.filter (fun e => decide (e.r0 = gv1.now))).map (fun e =>
              ({ start := { tripId := e.tripId, r0 := e.r0, departH0 := e.departH0,
                            arriveH0 := e.arriveH0 },
                 rf := e.r0 + (stepUntil - gv1.now) } : Box)) } = .ok gv' := by
  unfold stepGodView at h
  cases h1 : normalizeGodView gv with
  | error e => rw [h1] at h; simp at h
  | ok gv1 =>
    rw [h1] at h
    simp only [exBind_ok] at h
    cases h2 : getNextInterestingTime gv1 with
    | error e => rw [h2] at h; simp at h
    | ok stepUntil =>
      rw [h2] at h
      simp only [exBind_ok] at h
      cases h3 : getNonPastEvents gv1 with
      | error e => rw [h3] at h; simp at h
      | ok events =>
        rw [h3] at h
        simp only [exBind_ok] at h
        cases h4 : evolveChunks gv1.chunks
            ((events.filter (fun e => decide (e.r0 = gv1.now))).filter
              (fun e => decide (e.departH0 ∉
                (events.filter (fun e => decide (e.r0 = gv1.now))).map (·.arriveH0))))
            (stepUntil - gv1.now) with
        | error e => rw [h4] at h; simp at h
        | ok newChunks =>
          rw [h4] at h
          simp only [exBind_ok] at h
          exact ⟨gv1, stepUntil, events, newChunks, rfl, h2, h3, h4, h⟩


/-! ## Claim C1 (amended): the partition invariant after a step -/

/-- The amended partition invariant holds after every successful
normalization: the chunks are chained from 0 to `+Infinity`, and any
adjacent pair with equal histories sits at the departure point of an event
that is still discoverable in the normalized state. -/
theorem normalizeGodView_partition {gv gv' : GodView}
    (h : normalizeGodView gv = .ok gv') :
    chunksWF gv'.chunks
      ∧ ∃ evs, getNonPastEvents gv' = .ok evs
          ∧ List.Chain' (fun p q => p.history = q.history →
              q.start ∈ evs.map (·.departH0)) gv'.chunks := by
  rcases normalizeGodView_ok_inv h with ⟨evs0, chunks, hevs0, hnorm, hgv', _⟩
  rcases normalizeChunks_ok_inv hnorm with ⟨c0, rest, hsort, h0, hlastinf, hpos, hjoin⟩
  have hchunks : gv'.chunks = chunks := by rw [hgv']
  have hnow : gv'.now = gv.now := by rw [hgv']
  have hrules : gv'.rules = gv.rules := by rw [hgv']
  have hwf : chunksWF gv'.chunks := by
    rw [hchunks]
    have := joinChunks_wf hjoin (hpos c0 (List.mem_cons_self _ _))
      (fun c hc => hpos c (List.mem_cons_of_mem _ hc))
      (by rw [lastEnd_eq_getLast]; exact hlastinf)
    show chainedFrom (ETime.fin 0) chunks
    rw [← h0]
    exact this
  refine ⟨hwf, ?_⟩
  rcases @getNonPastEvents_total gv' hwf with ⟨evs, hevs⟩
  refine ⟨evs, hevs, ?_⟩
  have hforced := joinChunks_forced hjoin
  have hinput := joinChunks_inputChain hjoin
  have hpw := chain_pairwise_start_lt hinput hpos
  rw [hchunks]
  refine chain_imp_mem hforced ?_
  intro p hp q hq hpq hist
  have hqnj := hpq hist
  -- the forced boundary is the departure point of an event of `gv`
  rcases List.mem_map.mp hqnj with ⟨e0, he0, hdep0⟩
  rcases getNonPastEvents_origin hevs0 e0 he0 with ⟨c, hcmem, t, ht, hcstart, hns⟩
  -- the output chunk `q` originates from an input chunk with its start
  rcases joinChunks_origin hjoin q hq with ⟨c2, hc2, hc2start, hc2hist⟩
  have hcmem' : c ∈ c0 :: rest := by rw [← hsort, mem_sortByKey]; exact hcmem
  have hceq : c = c2 := by
    refine pairwise_start_inj hpw c hcmem' c2 hc2 ?_
    rw [hc2start, hcstart, hdep0]
  -- replay the trip in the normalized state
  have hqmem : q ∈ gv'.chunks := by rw [hchunks]; exact hq
  have ht' : t ∈ gv'.rules q.history := by
    rw [hrules, ← hc2hist, ← hceq]
    exact ht
  have hns' : ¬(hc2rt q.start t.depart < gv'.now) := by
    rw [hnow]
    have : q.start = c.start := by rw [hceq, ← hc2start]
    rw [this]
    exact hns
  rcases getNonPastEvents_construct hevs hqmem ht' hns' with ⟨e, he, hedep⟩
  exact List.mem_map.mpr ⟨e, he, hedep⟩

/-- Claim C1 (amended): for every GodView on which `stepGodView` succeeds,
the resulting chunk list is sorted, gap-free, starts at 0, ends at
`+Infinity` and has no zero-length members; and any two adjacent chunks
with identical history are separated by a forced-split boundary — the
departure point of an event still discoverable in the resulting state.
(The unconditional "no two adjacent chunks share identical history" fails;
see the counterexample.) -/
theorem claim1_partition_invariant {gv gv' : GodView} (h : stepGodView gv = .ok gv') :
    chunksWF gv'.chunks
      ∧ ∃ evs, getNonPastEvents gv' = .ok evs
          ∧ List.Chain' (fun p q => p.history = q.history →
              q.start ∈ evs.map (·.departH0)) gv'.chunks := by
  rcases stepGodView_ok_inv h with ⟨gv1, stepUntil, events, newChunks, _, _, _, _, hfin⟩
  exact normalizeGodView_partition hfin

/-- Claim C1 witness: the amended partition invariant, instantiated at
`gvSplit`, on which the step succeeds and returns `gvSplitStepped`. -/
theorem claim1_witness :
    chunksWF gvSplitStepped.chunks
      ∧ ∃ evs, getNonPastEvents gvSplitStepped = .ok evs
          ∧ List.Chain' (fun p q => p.history = q.history →
              q.start ∈ evs.map (·.departH0)) gvSplitStepped.chunks :=
  @claim1_partition_invariant gvSplit gvSplitStepped (by rfl)

/-! ## Claim C2 (amended): monotonic clock and quiescent fixed point -/

theorem timeUntilChunkEnd_nonneg {cs : List Chunk} {h0 t : ETime}
    (h : timeUntilChunkEnd cs h0 = .ok t) : ETime.fin 0 ≤ t := by
  unfold timeUntilChunkEnd at h
  split_ifs at h with hneg
  · simp only [Except.ok.injEq] at h
    subst h
    cases h0 with
    | inf => exact absurd hneg (ETime.not_inf_lt _)
    | fin n =>
      simp only [ETime.fin_lt_fin] at hneg
      simp only [ETime.fin_sub_fin, ETime.fin_le_fin]
      omega
  · split at h
    · simp at h
    · rename_i c hc
      simp only [Except.ok.injEq] at h
      subst h
      have hp := List.find?_some hc
      simp only [Bool.and_eq_true, decide_eq_true_eq] at hp
      cases h0 with
      | inf => exact absurd hp.2 (ETime.not_inf_lt _)
      | fin n =>
        cases hend : c.end_ with
        | inf => simp
        | fin m =>
          rw [hend] at hp
          simp only [ETime.fin_lt_fin] at hp
          simp only [ETime.fin_sub_fin, ETime.fin_le_fin]
          omega

theorem candidatesFor_ge {gv : GodView} {events : List Event} {e : Event}
    {cs : List ETime} (h : candidatesFor gv events e = .ok cs) :
    ∀ x ∈ cs, gv.now ≤ x := by
  intro x hx
  unfold candidatesFor at h
  split_ifs at h with h1
  · simp only [Except.ok.injEq] at h
    subst h
    rcases List.mem_singleton.mp hx with rfl
    exact le_of_lt h1
  · cases ht1 : timeUntilChunkEnd gv.chunks e.departH0 with
    | error msg => rw [ht1] at h; simp at h
    | ok t1 =>
      rw [ht1] at h
      simp only [exBind_ok] at h
      cases ht2 : timeUntilChunkEnd gv.chunks e.arriveH0 with
      | error msg => rw [ht2] at h; simp at h
      | ok t2 =>
        rw [ht2] at h
        simp only [exBind_ok, exPure_eq, Except.ok.injEq] at h
        subst h
        rcases List.mem_append.mp hx with hx2 | hx2
        · rcases List.mem_cons.mp hx2 with rfl | hx3
          · exact ETime.le_add_of_nonneg (timeUntilChunkEnd_nonneg ht1)
          · rcases List.mem_singleton.mp hx3 with rfl
            exact ETime.le_add_of_nonneg (timeUntilChunkEnd_nonneg ht2)
        · rcases List.mem_filterMap.mp hx2 with ⟨e2, _, hsome⟩
          split_ifs at hsome with hcond
          simp only [Option.some.injEq] at hsome
          subst hsome
          exact ETime.le_add_sub hcond.2

theorem foldr_min_ge {l : List ETime} {a : ETime} (h : ∀ x ∈ l, a ≤ x) :
    a ≤ l.foldr min ETime.inf := by
  induction l with
  | nil => simp
  | cons x xs ih =>
    simp only [List.foldr]
    exact le_min (h x (List.mem_cons_self _ _))
      (ih fun y hy => h y (List.mem_cons_of_mem _ hy))

/-- The oracle never goes backward: the next interesting time is at least
the current clock. -/
theorem getNextInterestingTime_ge {gv : GodView} {t : ETime}
    (h : getNextInterestingTime gv = .ok t) : gv.now ≤ t := by
  unfold getNextInterestingTime at h
  cases hevs : getNonPastEvents gv with
  | error msg => rw [hevs] at h; simp at h
  | ok events =>
    rw [hevs] at h
    simp only [exBind_ok] at h
    cases hcss : exMapM (candidatesFor gv events) events with
    | error msg => rw [hcss] at h; simp at h
    | ok css =>
      rw [hcss] at h
      simp only [exBind_ok, exPure_eq, Except.ok.injEq] at h
      subst h
      refine foldr_min_ge ?_
      intro x hx
      rcases List.mem_flatten.mp hx with ⟨cs, hcs, hxcs⟩
      rcases exMapM_ok_elems hcss cs hcs with ⟨e, _, hce⟩
      exact candidatesFor_ge hce x hxcs

/-- At a quiescent clock over an all-finite-start partition there are no
non-past events. -/
theorem getNonPastEvents_inf {gv : GodView} (hnow : gv.now = ETime.inf)
    (hfin : ∀ c ∈ gv.chunks, c.start ≠ ETime.inf) :
    getNonPastEvents gv = .ok [] := by
  have htrip : ∀ c ∈ gv.chunks, ∀ t ∈ gv.rules c.history,
      eventsForTrip gv c t = .ok [] := by
    intro c hc t _
    have : hc2rt c.start t.depart < gv.now := by
      rw [hnow]
      cases hcs : c.start with
      | inf => exact absurd hcs (hfin c hc)
      | fin n => simp [hc2rt]
    simp [eventsForTrip, if_pos this]
  have hc : ∀ c ∈ gv.chunks,
      ((exMapM (eventsForTrip gv c) (gv.rules c.history)).map List.flatten) = .ok [] := by
    intro c hc
    rw [exMapM_all_nil (htrip c hc)]
    simp
  unfold getNonPastEvents
  rw [exMapM_all_nil hc]
  simp

/-- Claim C2 (amended): the clock never decreases across a successful step,
and a state with `now = +Infinity` that normalization leaves unchanged is a
fixed point of the step function.  (That stepping is a no-op for *every*
state with `now = +Infinity` fails — see the counterexample — because the
step normalizes its input.) -/
theorem claim2_monotonic_clock :
    (∀ gv gv' : GodView, stepGodView gv = .ok gv' → gv.now ≤ gv'.now)
      ∧ (∀ gv : GodView, gv.now = ETime.inf → normalizeGodView gv = .ok gv →
          stepGodView gv = .ok gv) := by
  constructor
  · intro gv gv' h
    rcases stepGodView_ok_inv h with ⟨gv1, stepUntil, events, newChunks, h1, h2, h3, h4, hfin⟩
    rcases normalizeGodView_ok_inv h1 with ⟨_, _, _, _, hgv1, _⟩
    have hnow1 : gv1.now = gv.now := by rw [hgv1]
    rcases normalizeGodView_ok_inv hfin with ⟨_, _, _, _, hgv', _⟩
    have hnow' : gv'.now = stepUntil := by rw [hgv']
    rw [hnow', ← hnow1]
    exact getNextInterestingTime_ge h2
  · intro gv hnow hfix
    have hfin : ∀ c ∈ gv.chunks, c.start ≠ ETime.inf := by
      rcases normalizeGodView_ok_inv hfix with ⟨evs, chunks, _, hnorm, _, _⟩
      rcases normalizeChunks_ok_inv hnorm with ⟨c0, rest, hsort, _, _, hpos, _⟩
      intro c hc
      have : c ∈ c0 :: rest := by rw [← hsort, mem_sortByKey]; exact hc
      exact ne_inf_of_lt (hpos c this)
    have hevs : getNonPastEvents gv = .ok [] := getNonPastEvents_inf hnow hfin
    have hnext : getNextInterestingTime gv = .ok ETime.inf := by
      unfold getNextInterestingTime
      rw [hevs]
      simp [exMapM]
    have hrec : ({ rules := gv.rules, now := ETime.inf, chunks := gv.chunks,
                   past := gv.past } : GodView) = gv := by
      cases gv with
      | mk r n c p =>
        simp only at hnow
        rw [hnow]
    unfold stepGodView
    rw [hfix]
    simp only [exBind_ok]
    rw [hnext]
    simp only [exBind_ok]
    rw [hevs]
    simp only [exBind_ok]
    simp only [List.filter_nil, List.map_nil]
    rw [show evolveChunks gv.chunks [] (ETime.inf - gv.now) = .ok gv.chunks from rfl]
    simp only [exBind_ok, List.append_nil]
    rw [hrec]
    exact hfix

/-- Claim C2 witness: the monotone part applied to the concrete successful
step from `gvSplit`, and the fixed-point part applied to the normalized
quiescent state `gvInfOne`. -/
theorem claim2_witness :
    gvSplit.now ≤ gvSplitStepped.now ∧ stepGodView gvInfOne = .ok gvInfOne :=
  ⟨claim2_monotonic_clock.1 gvSplit gvSplitStepped (by rfl),
   claim2_monotonic_clock.2 gvInfOne rfl (by rfl)⟩

/-! ## Claim C6: the chained lookahead matches the spec word for word -/

/-- One trip's discovery agrees with the spec-side description. -/
theorem eventsForTrip_eq_spec (gv : GodView) (c : Chunk) (t : Trip) :
    eventsForTrip gv c t = specEventsForTrip gv c t := by
  simp only [eventsForTrip, specEventsForTrip, specChainedLookahead, chainedEvents]
  by_cases h1 : hc2rt c.start t.depart < gv.now
  · rw [if_pos h1, if_pos h1]
  · rw [if_neg h1, if_neg h1]
    by_cases h2 : hc2rt c.start t.depart = gv.now
        ∧ ETime.fin 0 ≤ rc2ht (hc2rt c.start t.depart) t.arrive
    · rw [if_pos h2, if_pos h2]
      cases hfind : gv.chunks.find? (fun cc =>
          decide (cc.start ≤ rc2ht (hc2rt c.start t.depart) t.arrive)
            && decide (rc2ht (hc2rt c.start t.depart) t.arrive < cc.end_)) with
      | none => rfl
      | some ac => rfl
    · rw [if_neg h2, if_neg h2]
      rfl

/-- Claim C6: `getNonPastEvents` equals, on every GodView, the spec-side
event discovery: for every chunk `C` and trip `T` with `r0 = now` and
`arriveH0 ≥ 0`, it looks up trips keyed by the arrival chunk's history plus
`T.id`; each such `T2` gets `r0' = departureRealTime(arriveH0, T2.depart)`,
is skipped when `r0' ≤ now`, and is otherwise emitted with the original
chunk's start as `departH0` and `arrivalHypertime(r0', T2.arrive)` as its
arrival — with exactly one level of chaining. -/
theorem claim6_chained_lookahead (gv : GodView) :
    getNonPastEvents gv = specNonPastEvents gv := by
  unfold getNonPastEvents specNonPastEvents
  have hchunk : ∀ c ∈ gv.chunks,
      ((exMapM (eventsForTrip gv c) (gv.rules c.history)).map List.flatten)
        = ((exMapM (specEventsForTrip gv c) (gv.rules c.history)).map List.flatten) := by
    intro c _
    rw [exMapM_congr (fun t _ => eventsForTrip_eq_spec gv c t)]
  rw [exMapM_congr hchunk]

/-! ## Claim C5: interval lemmas for `evolveChunks` -/

theorem iopIntersection_some_mem {a b ov : ETime × ETime}
    (h : iopIntersection a b = some ov) (x : ETime) :
    (ov.1 ≤ x ∧ x < ov.2) ↔ ((a.1 ≤ x ∧ x < a.2) ∧ (b.1 ≤ x ∧ x < b.2)) := by
  unfold iopIntersection at h
  split_ifs at h
  simp only [Option.some.injEq] at h
  subst h
  simp only [max_le_iff, lt_min_iff]
  constructor
  · rintro ⟨⟨h1, h2⟩, h3, h4⟩
    exact ⟨⟨h1, h3⟩, h2, h4⟩
  · rintro ⟨⟨h1, h3⟩, h2, h4⟩
    exact ⟨⟨h1, h2⟩, h3, h4⟩

theorem iopIntersection_some_sub {a b ov : ETime × ETime}
    (h : iopIntersection a b = some ov) :
    a.1 ≤ ov.1 ∧ ov.2 ≤ a.2 ∧ ov.1 < ov.2 := by
  unfold iopIntersection at h
  split_ifs at h with hlo
  simp only [Option.some.injEq] at h
  subst h
  exact ⟨le_max_left _ _, min_le_left _ _, hlo⟩

theorem iopIntersection_none_mem {a b : ETime × ETime}
    (h : iopIntersection a b = none) (x : ETime) :
    ¬((a.1 ≤ x ∧ x < a.2) ∧ (b.1 ≤ x ∧ x < b.2)) := by
  unfold iopIntersection at h
  split_ifs at h with hlo
  rintro ⟨⟨h1, h2⟩, h3, h4⟩
  exact hlo (lt_of_le_of_lt (max_le h1 h3) (lt_min h2 h4))

theorem iopDifference_mem_of {a hole : ETime × ETime} {p : ETime × ETime}
    (hp : p ∈ iopDifference a hole) (hsub1 : a.1 ≤ hole.1) (hsub2 : hole.2 ≤ a.2)
    (hne : hole.1 ≤ hole.2) (x : ETime) (hx : p.1 ≤ x ∧ x < p.2) :
    (a.1 ≤ x ∧ x < a.2) ∧ ¬(hole.1 ≤ x ∧ x < hole.2) := by
  unfold iopDifference at hp
  rcases List.mem_append.mp hp with hp2 | hp2
  · split_ifs at hp2 with hcond
    · rcases List.mem_singleton.mp hp2 with rfl
      exact ⟨⟨hx.1, lt_of_lt_of_le hx.2 (le_trans hne hsub2)⟩,
        fun hc => absurd hx.2 (not_lt.mpr hc.1)⟩
    · cases hp2
  · split_ifs at hp2 with hcond
    · rcases List.mem_singleton.mp hp2 with rfl
      exact ⟨⟨le_trans (le_trans hsub1 hne) hx.1, hx.2⟩,
        fun hc => absurd hc.2 (not_lt.mpr hx.1)⟩
    · cases hp2

theorem iopDifference_mem_to {a hole : ETime × ETime}
    (x : ETime) (hxa : a.1 ≤ x ∧ x < a.2) (hxh : ¬(hole.1 ≤ x ∧ x < hole.2)) :
    ∃ p ∈ iopDifference a hole, p.1 ≤ x ∧ x < p.2 := by
  unfold iopDifference
  rcases not_and_or.mp hxh with hlt | hge
  · have hlt := lt_of_not_le hlt
    refine ⟨(a.1, hole.1), ?_, hxa.1, hlt⟩
    rw [if_pos (lt_of_le_of_lt hxa.1 hlt)]
    simp
  · have hge := le_of_not_lt hge
    refine ⟨(hole.2, a.2), ?_, hge, hxa.2⟩
    rw [List.mem_append]
    right
    rw [if_pos (lt_of_le_of_lt hge hxa.2)]
    simp

/-- Every piece produced by an arrival split lies inside the subchunk. -/
theorem splitArrival_sub {dt : ETime} {e : Event} {sub p : Chunk}
    (hp : p ∈ splitArrival dt e sub) {h : ETime} (hh : inChunk p h) : inChunk sub h := by
  unfold splitArrival at hp
  split at hp
  · rcases List.mem_singleton.mp hp with rfl
    exact hh
  · rename_i ov hov
    rcases List.mem_cons.mp hp with rfl | hp2
    · exact ((iopIntersection_some_mem hov h).mp hh).1
    · rcases List.mem_map.mp hp2 with ⟨i, hi, rfl⟩
      rcases iopIntersection_some_sub hov with ⟨hs1, hs2, hs3⟩
      exact (iopDifference_mem_of hi hs1 hs2 (le_of_lt hs3) h hh).1

/-- Pointwise coverage is preserved by an arrival split. -/
theorem splitArrival_coverage (dt : ETime) (e : Event) (sub : Chunk) (h : ETime) :
    (∃ p ∈ splitArrival dt e sub, inChunk p h) ↔ inChunk sub h := by
  constructor
  · rintro ⟨p, hp, hh⟩
    exact splitArrival_sub hp hh
  · intro hh
    unfold splitArrival
    split
    · exact ⟨sub, List.mem_singleton_self _, hh⟩
    · rename_i ov hov
      by_cases hband : e.arriveH0 ≤ h ∧ h < e.arriveH0 + dt
      · refine ⟨_, List.mem_cons_self _ _, ?_⟩
        exact (iopIntersection_some_mem hov h).mpr ⟨hh, hband⟩
      · rcases @iopDifference_mem_to (sub.start, sub.end_) ov h hh
          (fun hov2 => hband ((iopIntersection_some_mem hov h).mp hov2).2)
          with ⟨i, hi, hxi⟩
        exact ⟨_, List.mem_cons_of_mem _ (List.mem_map_of_mem _ hi), hxi⟩

/-- The history of an arrival-split piece at a point: tagged inside the
band, unchanged outside. -/
theorem splitArrival_history {dt : ETime} {e : Event} {sub p : Chunk}
    (hp : p ∈ splitArrival dt e sub) {h : ETime} (hh : inChunk p h) :
    p.history = if e.arriveH0 ≤ h ∧ h < e.arriveH0 + dt
      then insert e.tripId sub.history else sub.history := by
  unfold splitArrival at hp
  split at hp
  · rename_i hov
    rcases List.mem_singleton.mp hp with rfl
    rw [if_neg]
    intro hband
    exact iopIntersection_none_mem hov h ⟨hh, hband⟩
  · rename_i ov hov
    rcases List.mem_cons.mp hp with rfl | hp2
    · rw [if_pos ((iopIntersection_some_mem hov h).mp hh).2]
    · rcases List.mem_map.mp hp2 with ⟨i, hi, rfl⟩
      rcases iopIntersection_some_sub hov with ⟨hs1, hs2, hs3⟩
      have := iopDifference_mem_of hi hs1 hs2 (le_of_lt hs3) h hh
      rw [if_neg]
      intro hband
      exact this.2 ((iopIntersection_some_mem hov h).mpr ⟨this.1, hband⟩)

/-- Every piece produced by a departure split lies inside the subchunk. -/
theorem splitDeparture_sub {dt : ETime} {e : Event} {sub p : Chunk}
    (hp : p ∈ splitDeparture dt e sub) {h : ETime} (hh : inChunk p h) : inChunk sub h := by
  unfold splitDeparture at hp
  split at hp
  · rcases List.mem_singleton.mp hp with rfl
    exact hh
  · rename_i ov hov
    rcases List.mem_cons.mp hp with rfl | hp2
    · exact ((iopIntersection_some_mem hov h).mp hh).1
    · rcases List.mem_map.mp hp2 with ⟨i, hi, rfl⟩
      rcases iopIntersection_some_sub hov with ⟨hs1, hs2, hs3⟩
      exact (iopDifference_mem_of hi hs1 hs2 (le_of_lt hs3) h hh).1

/-- Pointwise coverage is preserved by a departure split. -/
theorem splitDeparture_coverage (dt : ETime) (e : Event) (sub : Chunk) (h : ETime) :
    (∃ p ∈ splitDeparture dt e sub, inChunk p h) ↔ inChunk sub h := by
  constructor
  · rintro ⟨p, hp, hh⟩
    exact splitDeparture_sub hp hh
  · intro hh
    unfold splitDeparture
    split
    · exact ⟨sub, List.mem_singleton_self _, hh⟩
    · rename_i ov hov
      by_cases hband : e.departH0 ≤ h ∧ h < e.departH0 + dt
      · refine ⟨_, List.mem_cons_self _ _, ?_⟩
        exact (iopIntersection_some_mem hov h).mpr ⟨hh, hband⟩
      · rcases @iopDifference_mem_to (sub.start, sub.end_) ov h hh
          (fun hov2 => hband ((iopIntersection_some_mem hov h).mp hov2).2)
          with ⟨i, hi, hxi⟩
        exact ⟨_, List.mem_cons_of_mem _ (List.mem_map_of_mem _ hi), hxi⟩

/-- A departure split never changes a piece's history. -/
theorem splitDeparture_history {dt : ETime} {e : Event} {sub p : Chunk}
    (hp : p ∈ splitDeparture dt e sub) : p.history = sub.history := by
  unfold splitDeparture at hp
  split at hp
  · rcases List.mem_singleton.mp hp with rfl
    rfl
  · rcases List.mem_cons.mp hp with rfl | hp2
    · rfl
    · rcases List.mem_map.mp hp2 with ⟨i, _, rfl⟩
      rfl

/-! ## Claim C5: the fold lemmas and the evolution theorem -/

@[simp] theorem bandTags_nil (dt h : ETime) : bandTags [] dt h = ∅ := rfl

theorem bandTags_cons (e : Event) (es : List Event) (dt h : ETime) :
    bandTags (e :: es) dt h
      = if e.arriveH0 ≤ h ∧ h < e.arriveH0 + dt
        then insert e.tripId (bandTags es dt h) else bandTags es dt h := by
  unfold bandTags
  rw [List.filter_cons]
  split_ifs with hcond hcond2 hcond3
  · simp
  · exact absurd (by simpa using hcond) hcond2
  · exact absurd hcond3 (by simpa using hcond)
  · rfl

/-- Folding arrival splits over a subchunk list preserves pointwise coverage
and accumulates exactly the band tags onto the pointwise history. -/
theorem foldArrival_spec (dt : ETime) :
    ∀ (es : List Event) (subs : List Chunk) (P : ETime → Prop) (H : ETime → Finset String),
      (∀ h, (∃ p ∈ subs, inChunk p h) ↔ P h) →
      (∀ p ∈ subs, ∀ h, inChunk p h → p.history = H h) →
      (∀ h, (∃ p ∈ es.foldl (fun ss e => ss.flatMap (splitArrival dt e)) subs,
          inChunk p h) ↔ P h)
        ∧ (∀ p ∈ es.foldl (fun ss e => ss.flatMap (splitArrival dt e)) subs,
            ∀ h, inChunk p h → p.history = H h ∪ bandTags es dt h) := by
  intro es
  induction es with
  | nil =>
    intro subs P H hcov hhist
    refine ⟨hcov, ?_⟩
    intro p hp h hh
    simp only [bandTags_nil, Finset.union_empty]
    exact hhist p hp h hh
  | cons e es ih =>
    intro subs P H hcov hhist
    have hcov' : ∀ h, (∃ p ∈ subs.flatMap (splitArrival dt e), inChunk p h) ↔ P h := by
      intro h
      rw [← hcov h]
      constructor
      · rintro ⟨p', hp', hh⟩
        rcases List.mem_flatMap.mp hp' with ⟨p, hp, hsplit⟩
        exact ⟨p, hp, splitArrival_sub hsplit hh⟩
      · rintro ⟨p, hp, hh⟩
        rcases (splitArrival_coverage dt e p h).mpr hh with ⟨p', hp', hh'⟩
        exact ⟨p', List.mem_flatMap.mpr ⟨p, hp, hp'⟩, hh'⟩
    have hhist' : ∀ p' ∈ subs.flatMap (splitArrival dt e), ∀ h, inChunk p' h →
        p'.history = (if e.arriveH0 ≤ h ∧ h < e.arriveH0 + dt
          then insert e.tripId (H h) else H h) := by
      intro p' hp' h hh
      rcases List.mem_flatMap.mp hp' with ⟨p, hp, hsplit⟩
      rw [splitArrival_history hsplit hh,
        hhist p hp h (splitArrival_sub hsplit hh)]
    rcases ih (subs.flatMap (splitArrival dt e)) P
      (fun h => if e.arriveH0 ≤ h ∧ h < e.arriveH0 + dt
        then insert e.tripId (H h) else H h) hcov' hhist' with ⟨hc, hh⟩
    refine ⟨hc, ?_⟩
    intro p hp h hhp
    rw [hh p hp h hhp, bandTags_cons]
    split_ifs with hband
    · rw [Finset.insert_union, Finset.union_insert]
    · rfl

/-- Folding departure splits preserves pointwise coverage and histories. -/
theorem foldDeparture_spec (dt : ETime) :
    ∀ (es : List Event) (subs : List Chunk) (P : ETime → Prop) (H : ETime → Finset String),
      (∀ h, (∃ p ∈ subs, inChunk p h) ↔ P h) →
      (∀ p ∈ subs, ∀ h, inChunk p h → p.history = H h) →
      (∀ h, (∃ p ∈ es.foldl (fun ss e => ss.flatMap (splitDeparture dt e)) subs,
          inChunk p h) ↔ P h)
        ∧ (∀ p ∈ es.foldl (fun ss e => ss.flatMap (splitDeparture dt e)) subs,
            ∀ h, inChunk p h → p.history = H h) := by
  intro es
  induction es with
  | nil =>
    intro subs P H hcov hhist
    exact ⟨hcov, hhist⟩
  | cons e es ih =>
    intro subs P H hcov hhist
    have hcov' : ∀ h, (∃ p ∈ subs.flatMap (splitDeparture dt e), inChunk p h) ↔ P h := by
      intro h
      rw [← hcov h]
      constructor
      · rintro ⟨p', hp', hh⟩
        rcases List.mem_flatMap.mp hp' with ⟨p, hp, hsplit⟩
        exact ⟨p, hp, splitDeparture_sub hsplit hh⟩
      · rintro ⟨p, hp, hh⟩
        rcases (splitDeparture_coverage dt e p h).mpr hh with ⟨p', hp', hh'⟩
        exact ⟨p', List.mem_flatMap.mpr ⟨p, hp, hp'⟩, hh'⟩
    have hhist' : ∀ p' ∈ subs.flatMap (splitDeparture dt e), ∀ h, inChunk p' h →
        p'.history = H h := by
      intro p' hp' h hh
      rcases List.mem_flatMap.mp hp' with ⟨p, hp, hsplit⟩
      rw [splitDeparture_history hsplit,
        hhist p hp h (splitDeparture_sub hsplit hh)]
    exact ih (subs.flatMap (splitDeparture dt e)) P H hcov' hhist'

/-- Band tags over chunk-filtered arrivals are the chunk's arrival tags. -/
theorem bandTags_filter_eq (c : Chunk) (events : List Event) (dt h : ETime) :
    bandTags (events.filter
        (fun e => decide (c.start ≤ e.arriveH0) && decide (e.arriveH0 < c.end_)))
      dt h = arrivalTags c events dt h := by
  unfold bandTags arrivalTags
  rw [List.filter_filter]
  congr 1
  congr 1
  apply List.filter_congr
  intro e _
  simp only [inChunk, Bool.decide_and]
  simp [Bool.and_comm, Bool.and_assoc, Bool.and_left_comm]

/-- The pointwise specification of one chunk's evolution: coverage is
unchanged, and the history at every point gains exactly the arriving trips
whose bands cover it. -/
theorem evolveChunk_spec (events : List Event) (dt : ETime) (chunk : Chunk) :
    (∀ h, (∃ p ∈ evolveChunk events dt chunk, inChunk p h) ↔ inChunk chunk h)
      ∧ (∀ p ∈ evolveChunk events dt chunk, ∀ h, inChunk p h →
          p.history = chunk.history ∪ arrivalTags chunk events dt h) := by
  have hinit1 : ∀ h, (∃ p ∈ [chunk], inChunk p h) ↔ inChunk chunk h := by
    intro h
    simp
  have hinit2 : ∀ p ∈ [chunk], ∀ h, inChunk p h →
      p.history = (fun _ => chunk.history) h := by
    intro p hp h _
    rcases List.mem_singleton.mp hp with rfl
    rfl
  rcases foldArrival_spec dt
      (events.filter (fun e => decide (chunk.start ≤ e.arriveH0)
        && decide (e.arriveH0 < chunk.end_)))
      [chunk] (inChunk chunk) (fun _ => chunk.history) hinit1 hinit2 with ⟨ha1, ha2⟩
  rcases foldDeparture_spec dt
      (events.filter (fun e => decide (chunk.start ≤ e.departH0)
        && decide (e.departH0 < chunk.end_)))
      _ (inChunk chunk)
      (fun h => chunk.history ∪ bandTags (events.filter
        (fun e => decide (chunk.start ≤ e.arriveH0) && decide (e.arriveH0 < chunk.end_))) dt h)
      ha1 ha2 with ⟨hd1, hd2⟩
  constructor
  · intro h
    exact hd1 h
  · intro p hp h hh
    rw [hd2 p hp h hh, bandTags_filter_eq]

theorem dedup_length_le_one {l : List ETime} (h : ∀ x ∈ l, ∀ y ∈ l, x = y) :
    ¬ 1 < l.dedup.length := by
  intro hlen
  rcases hd : l.dedup with _ | ⟨x, _ | ⟨y, rest2⟩⟩
  · rw [hd] at hlen; simp at hlen
  · rw [hd] at hlen; simp at hlen
  · have hnodup := l.nodup_dedup
    rw [hd] at hnodup
    rcases List.pairwise_cons.mp hnodup with ⟨hx, _⟩
    apply hx y (List.mem_cons_self _ _)
    have hxl : x ∈ l := by
      rw [← List.mem_dedup (a := x), hd]
      exact List.mem_cons_self _ _
    have hyl : y ∈ l := by
      rw [← List.mem_dedup (a := y), hd]
      exact List.mem_cons_of_mem _ (List.mem_cons_self _ _)
    exact h x hxl y hyl

/-- Claim C5: for every chunk list, every event list sharing one `r0`, and
every duration `dt`, `evolveChunks` succeeds and equals the per-chunk
splitting; within each chunk, coverage is preserved pointwise, and each
point's history gains exactly the trips of the events whose `arriveH0` lies
inside that chunk and whose arrival band `[arriveH0, arriveH0+dt)` covers
the point — departure splits leave every history unchanged. -/
theorem claim5_evolve_bands (cs : List Chunk) (events : List Event) (dt : ETime)
    (hr0 : ∀ e1 ∈ events, ∀ e2 ∈ events, e1.r0 = e2.r0) :
    ∃ out, evolveChunks cs events dt = .ok out
      ∧ out = cs.flatMap (evolveChunk events dt)
      ∧ ∀ c ∈ cs,
          (∀ h, (∃ p ∈ evolveChunk events dt c, inChunk p h) ↔ inChunk c h)
          ∧ (∀ p ∈ evolveChunk events dt c, ∀ h, inChunk p h →
              p.history = c.history ∪ arrivalTags c events dt h) := by
  by_cases hne : events = []
  · subst hne
    refine ⟨cs, by rw [evolveChunks, if_pos rfl], ?_, ?_⟩
    · have : ∀ c : Chunk, evolveChunk [] dt c = [c] := fun c => rfl
      induction cs with
      | nil => rfl
      | cons c cs ih =>
        rw [List.flatMap_cons, this c, ← ih]
        rfl
    · intro c _
      exact evolveChunk_spec [] dt c
  · have hdedup : ¬ 1 < ((events.map (·.r0)).dedup).length := by
      apply dedup_length_le_one
      intro x hx y hy
      rcases List.mem_map.mp hx with ⟨e1, he1, rfl⟩
      rcases List.mem_map.mp hy with ⟨e2, he2, rfl⟩
      exact hr0 e1 he1 e2 he2
    refine ⟨cs.flatMap (evolveChunk events dt), ?_, rfl, ?_⟩
    · rw [evolveChunks, if_neg hne, if_neg hdedup]
    · intro c _
      exact evolveChunk_spec events dt c

/-- Claim C5 witness: the evolution theorem instantiated at the single full
chunk, the single sample event, and duration 2. -/
theorem claim5_witness :
    ∃ out, evolveChunks [chunkFull] [eventSample] (ETime.fin 2) = .ok out
      ∧ out = [chunkFull].flatMap (evolveChunk [eventSample] (ETime.fin 2))
      ∧ ∀ c ∈ [chunkFull],
          (∀ h, (∃ p ∈ evolveChunk [eventSample] (ETime.fin 2) c, inChunk p h)
            ↔ inChunk c h)
          ∧ (∀ p ∈ evolveChunk [eventSample] (ETime.fin 2) c, ∀ h, inChunk p h →
              p.history = c.history ∪ arrivalTags c [eventSample] (ETime.fin 2) h) :=
  claim5_evolve_bands [chunkFull] [eventSample] (ETime.fin 2) (by decide)

/-! ## Claim C10: the box-log invariant of `normalizeBoxes` -/

theorem mem_of_getElemQ {l : List α} {i : Nat} {b : α} (hb : l[i]? = some b) : b ∈ l := by
  rcases List.getElem?_eq_some.mp hb with ⟨h1, h2⟩
  subst h2
  exact List.getElem_mem h1

theorem lt_length_of_getElemQ {l : List α} {i : Nat} {b : α} (hb : l[i]? = some b) :
    i < l.length :=
  (List.getElem?_eq_some.mp hb).1

theorem findLastWithIdx_none {p : α → Bool} :
    ∀ {l : List α}, findLastWithIdx p l = none → ∀ x ∈ l, ¬ p x = true := by
  intro l
  induction l with
  | nil => intro _ x hx; cases hx
  | cons a as ih =>
    intro h x hx
    simp only [findLastWithIdx] at h
    rcases hfa : findLastWithIdx p as with _ | pair
    · rw [hfa] at h
      split_ifs at h with hpa
      rcases List.mem_cons.mp hx with rfl | hx2
      · exact hpa
      · exact ih hfa x hx2
    · rw [hfa] at h
      simp at h

theorem findLastWithIdx_some {p : α → Bool} :
    ∀ {l : List α} {i : Nat} {a : α}, findLastWithIdx p l = some (i, a) →
      l[i]? = some a ∧ p a = true
        ∧ ∀ j b, i < j → l[j]? = some b → ¬ p b = true := by
  intro l
  induction l with
  | nil => intro i a h; simp [findLastWithIdx] at h
  | cons x xs ih =>
    intro i a h
    simp only [findLastWithIdx] at h
    rcases hfa : findLastWithIdx p xs with _ | ⟨i', a'⟩
    · rw [hfa] at h
      split_ifs at h with hpx
      simp only [Option.some.injEq, Prod.mk.injEq] at h
      rcases h with ⟨rfl, rfl⟩
      refine ⟨by simp, hpx, ?_⟩
      intro j b hj hb
      cases j with
      | zero => cases hj
      | succ j' =>
        rw [List.getElem?_cons_succ] at hb
        exact findLastWithIdx_none hfa b (mem_of_getElemQ hb)
    · rw [hfa] at h
      simp only [Option.some.injEq, Prod.mk.injEq] at h
      rcases h with ⟨rfl, rfl⟩
      rcases ih hfa with ⟨h1, h2, h3⟩
      refine ⟨by simpa using h1, h2, ?_⟩
      intro j b hj hb
      cases j with
      | zero => cases hj
      | succ j' =>
        rw [List.getElem?_cons_succ] at hb
        exact h3 j' b (Nat.lt_of_succ_lt_succ hj) hb

/-- `abuts` certifies a `boxMatch`. -/
theorem boxMatch_of_abuts {b nb : Box} (h : abuts b nb) : boxMatch nb b = true := by
  unfold boxMatch
  rw [Bool.or_eq_true, Bool.and_eq_true]
  exact Or.inl ⟨decide_eq_true h.1, decide_eq_true h.2⟩

/-- `abuts` as the Boolean `boxAbuts`. -/
theorem boxAbuts_of_abuts {b nb : Box} (h : abuts b nb) : boxAbuts b nb = true := by
  unfold boxAbuts
  rw [Bool.and_eq_true]
  exact ⟨decide_eq_true h.1, decide_eq_true h.2⟩

/-- A matched box that does not abut is a blocker. -/
theorem blocks_of_match {b nb : Box} (hm : boxMatch nb b = true)
    (hna : boxAbuts b nb = false) : blocks b nb := by
  unfold boxMatch at hm
  unfold boxAbuts at hna
  rw [Bool.or_eq_true] at hm
  rcases hm with hm | hm
  · rw [hm] at hna
    cases hna
  · rw [Bool.and_eq_true, decide_eq_true_eq, decide_eq_true_eq] at hm
    exact hm

/-- The boolean `boxAbuts` back to the proposition. -/
theorem abuts_of_boxAbuts {b nb : Box} (h : boxAbuts b nb = true) : abuts b nb := by
  unfold boxAbuts at h
  rw [Bool.and_eq_true, decide_eq_true_eq, decide_eq_true_eq] at h
  exact h

/-- Widening a blocker target's `rf` keeps it a blocker. -/
theorem blocks_mono_rf {b nb : Box} {rf2 : ETime} (hle : nb.rf ≤ rf2)
    (h : blocks b nb) : blocks b { nb with rf := rf2 } := by
  rcases h with ⟨h1, h2⟩
  exact ⟨h1, lt_of_lt_of_le h2 (ETime.add_sub_mono hle)⟩

/-- Appending a box preserves the invariant when every abutting predecessor
has a blocker. -/
theorem noUnblockedAbut_push {res : List Box} {newBox : Box}
    (hP : noUnblockedAbut res)
    (hblock : ∀ i bi, res[i]? = some bi → abuts bi newBox →
      ∃ k bk, i < k ∧ k < res.length ∧ res[k]? = some bk ∧ blocks bk newBox) :
    noUnblockedAbut (res ++ [newBox]) := by
  intro i j hij bi bj hbi hbj habuts
  have hjlen := lt_length_of_getElemQ hbj
  rw [List.length_append, List.length_singleton] at hjlen
  have hilen : i < res.length := by
    have := lt_length_of_getElemQ hbi
    rw [List.length_append, List.length_singleton] at this
    omega
  rw [List.getElem?_append, if_pos hilen] at hbi
  by_cases hjres : j < res.length
  · rw [List.getElem?_append, if_pos hjres] at hbj
    rcases hP i j hij bi bj hbi hbj habuts with ⟨k, bk, hik, hkj, hbk, hblk⟩
    refine ⟨k, bk, hik, hkj, ?_, hblk⟩
    rw [List.getElem?_append, if_pos (lt_trans hkj hjres)]
    exact hbk
  · have hj : j = res.length := by omega
    subst hj
    have : bj = newBox := by
      rw [List.getElem?_append, if_neg (lt_irrefl _)] at hbj
      simp at hbj
      exact hbj.symm
    subst this
    rcases hblock i bi hbi habuts with ⟨k, bk, hik, hkres, hbk, hblk⟩
    refine ⟨k, bk, hik, hkres, ?_, hblk⟩
    rw [List.getElem?_append, if_pos hkres]
    exact hbk

/-- Merging into an abutting box preserves the invariant. -/
theorem noUnblockedAbut_set {res : List Box} {newBox prev : Box} {i : Nat}
    (hgeti : res[i]? = some prev)
    (habuts : boxAbuts prev newBox = true)
    (hnewpos : newBox.start.r0 < newBox.rf)
    (hcross : ∀ x ∈ res, x.start.r0 ≤ newBox.start.r0)
    (hP : noUnblockedAbut res) :
    noUnblockedAbut (res.set i { prev with rf := newBox.rf }) := by
  have hilen := lt_length_of_getElemQ hgeti
  have hrfgrow : prev.rf ≤ newBox.rf := by
    have := (abuts_of_boxAbuts habuts).2
    rw [this]
    exact le_of_lt hnewpos
  intro i' j' hij bi bj hbi hbj hab
  by_cases hii : i = i'
  · subst hii
    rw [List.getElem?_set_self hilen] at hbi
    simp only [Option.some.injEq] at hbi
    subst hbi
    exfalso
    have hjne : i ≠ j' := by omega
    rw [List.getElem?_set_ne hjne] at hbj
    have hle := hcross bj (mem_of_getElemQ hbj)
    have := hab.2
    simp only at this
    rw [this] at hnewpos
    exact absurd (lt_of_le_of_lt hle hnewpos) (lt_irrefl _)
  · rw [List.getElem?_set_ne (by omega)] at hbi
    by_cases hji : i = j'
    · subst hji
      rw [List.getElem?_set_self hilen] at hbj
      simp only [Option.some.injEq] at hbj
      subst hbj
      have hab' : abuts bi prev := hab
      rcases hP i' i hij bi prev hbi hgeti hab' with ⟨k, bk, hik, hki, hbk, hblk⟩
      refine ⟨k, bk, hik, hki, ?_, blocks_mono_rf hrfgrow hblk⟩
      rw [List.getElem?_set_ne (by omega)]
      exact hbk
    · rw [List.getElem?_set_ne (by omega)] at hbj
      rcases hP i' j' hij bi bj hbi hbj hab with ⟨k, bk, hik, hkj, hbk, hblk⟩
      by_cases hki : i = k
      · subst hki
        rw [hgeti] at hbk
        simp only [Option.some.injEq] at hbk
        subst hbk
        refine ⟨i, { prev with rf := newBox.rf }, hik, hkj, ?_, hblk⟩
        rw [List.getElem?_set_self hilen]
      · refine ⟨k, bk, hik, hkj, ?_, hblk⟩
        rw [List.getElem?_set_ne hki]
        exact hbk

/-- The merge loop preserves the box-log invariant. -/
theorem normalizeBoxesLoop_invariant :
    ∀ (rest res : List Box),
      (∀ x ∈ res, x.start.r0 < x.rf) →
      (∀ y ∈ rest, y.start.r0 < y.rf) →
      (∀ x ∈ res, ∀ y ∈ rest, x.start.r0 ≤ y.start.r0) →
      List.Pairwise (fun a b => a.start.r0 ≤ b.start.r0) rest →
      noUnblockedAbut res →
      noUnblockedAbut (normalizeBoxesLoop res rest) := by
  intro rest
  induction rest with
  | nil =>
    intro res _ _ _ _ hP
    simpa only [normalizeBoxesLoop] using hP
  | cons newBox rest ih =>
    intro res hpos hrpos hcross hsort hP
    have hnewpos : newBox.start.r0 < newBox.rf := hrpos newBox (List.mem_cons_self _ _)
    have hcrossnew : ∀ x ∈ res, x.start.r0 ≤ newBox.start.r0 :=
      fun x hx => hcross x hx newBox (List.mem_cons_self _ _)
    rcases List.pairwise_cons.mp hsort with ⟨hnewle, hsort2⟩
    have hrpos2 : ∀ y ∈ rest, y.start.r0 < y.rf :=
      fun y hy => hrpos y (List.mem_cons_of_mem _ hy)
    have hpushPos : ∀ x ∈ res ++ [newBox], x.start.r0 < x.rf := by
      intro x hx
      rcases List.mem_append.mp hx with hx2 | hx2
      · exact hpos x hx2
      · rcases List.mem_singleton.mp hx2 with rfl
        exact hnewpos
    have hpushCross : ∀ x ∈ res ++ [newBox], ∀ y ∈ rest, x.start.r0 ≤ y.start.r0 := by
      intro x hx y hy
      rcases List.mem_append.mp hx with hx2 | hx2
      · exact hcross x hx2 y (List.mem_cons_of_mem _ hy)
      · rcases List.mem_singleton.mp hx2 with rfl
        exact hnewle y hy
    rcases hfind : findLastWithIdx (boxMatch newBox) res with _ | ⟨i, prev⟩
    · have hstep : normalizeBoxesLoop res (newBox :: rest)
          = normalizeBoxesLoop (res ++ [newBox]) rest := by
        simp only [normalizeBoxesLoop, hfind]
      rw [hstep]
      refine ih (res ++ [newBox]) hpushPos hrpos2 hpushCross hsort2 ?_
      refine noUnblockedAbut_push hP ?_
      intro i bi hbi hab
      exact absurd (boxMatch_of_abuts hab)
        (findLastWithIdx_none hfind bi (mem_of_getElemQ hbi))
    · have hstep : normalizeBoxesLoop res (newBox :: rest)
          = if boxAbuts prev newBox = true
            then normalizeBoxesLoop (res.set i { prev with rf := newBox.rf }) rest
            else normalizeBoxesLoop (res ++ [newBox]) rest := by
        simp only [normalizeBoxesLoop, hfind]
      rw [hstep]
      rcases findLastWithIdx_some hfind with ⟨hgeti, hmatch, hlast⟩
      by_cases habuts : boxAbuts prev newBox = true
      · rw [if_pos habuts]
        have hprevmem := mem_of_getElemQ hgeti
        have hsetPos : ∀ x ∈ res.set i { prev with rf := newBox.rf },
            x.start.r0 < x.rf := by
          intro x hx
          rcases List.mem_or_eq_of_mem_set hx with hx2 | rfl
          · exact hpos x hx2
          · exact lt_of_le_of_lt (hcrossnew prev hprevmem) hnewpos
        have hsetCross : ∀ x ∈ res.set i { prev with rf := newBox.rf },
            ∀ y ∈ rest, x.start.r0 ≤ y.start.r0 := by
          intro x hx y hy
          rcases List.mem_or_eq_of_mem_set hx with hx2 | rfl
          · exact hcross x hx2 y (List.mem_cons_of_mem _ hy)
          · exact le_trans (hcrossnew prev hprevmem) (hnewle y hy)
        exact ih _ hsetPos hrpos2 hsetCross hsort2
          (noUnblockedAbut_set hgeti habuts hnewpos hcrossnew hP)
      · rw [if_neg habuts]
        refine ih (res ++ [newBox]) hpushPos hrpos2 hpushCross hsort2 ?_
        refine noUnblockedAbut_push hP ?_
        intro i2 bi hbi hab
        have hm := boxMatch_of_abuts hab
        have hle : i2 ≤ i := by
          by_contra hgt
          exact hlast i2 bi (by omega) hbi hm
        rcases lt_or_eq_of_le hle with hlt | rfl
        · refine ⟨i, prev, hlt, lt_length_of_getElemQ hgeti, hgeti, ?_⟩
          exact blocks_of_match hmatch (Bool.eq_false_iff.mpr habuts)
        · rw [hgeti] at hbi
          simp only [Option.some.injEq] at hbi
          subst hbi
          exact absurd (boxAbuts_of_abuts hab) habuts

/-- `normalizeBoxes` establishes the box-log invariant on positive-length
inputs. -/
theorem normalizeBoxes_invariant {boxes : List Box}
    (hpos : ∀ b ∈ boxes, b.start.r0 < b.rf) :
    noUnblockedAbut (normalizeBoxes boxes) := by
  unfold normalizeBoxes
  rcases hs : sortByKey (fun b => b.start.r0) boxes with _ | ⟨b0, rest⟩
  · rw [hs]
    intro i j hij bi bj hbi hbj hab
    simp at hbi
  · rw [hs]
    have hsort := pairwise_sortByKey (fun b => b.start.r0) boxes
    rw [hs] at hsort
    rcases List.pairwise_cons.mp hsort with ⟨hb0, hrest⟩
    have hmem : ∀ y ∈ b0 :: rest, y ∈ boxes := by
      intro y hy
      rw [← mem_sortByKey (fun b => b.start.r0) boxes, hs]
      exact hy
    refine normalizeBoxesLoop_invariant rest [b0] ?_ ?_ ?_ hrest ?_
    · intro x hx
      rcases List.mem_singleton.mp hx with rfl
      exact hpos x (hmem x (List.mem_cons_self _ _))
    · intro y hy
      exact hpos y (hmem y (List.mem_cons_of_mem _ hy))
    · intro x hx y hy
      rcases List.mem_singleton.mp hx with rfl
      exact hb0 y hy
    · intro i j hij bi bj hbi hbj hab
      have := lt_length_of_getElemQ hbj
      simp only [List.length_singleton] at this
      omega

/-- Claim C10 (amended): for every GodView whose past boxes all have
positive length, a successful `normalizeGodView` returns a past log in
which any two same-trip abutting boxes (earlier `rf` equal to later
`start.r0`) are separated by a box whose arrival hypertime lies inside the
later box's departure band — the preemption blocker that suppressed the
merge.  (Unconditional absence of abutting same-trip boxes fails; see the
counterexample.) -/
theorem claim10_abutting_needs_blocker {gv gv' : GodView}
    (hpos : ∀ b ∈ gv.past, b.start.r0 < b.rf)
    (h : normalizeGodView gv = .ok gv') :
    noUnblockedAbut gv'.past := by
  rcases normalizeGodView_ok_inv h with ⟨_, _, _, _, hgv', _⟩
  rw [hgv']
  exact normalizeBoxes_invariant hpos

/-- Claim C10 witness: the amended invariant instantiated at `gvBoxes`,
whose normalization succeeds and returns `gvBoxesNorm`. -/
theorem claim10_witness : noUnblockedAbut gvBoxesNorm.past :=
  @claim10_abutting_needs_blocker gvBoxes gvBoxesNorm (by decide) (by rfl)

end Hypertime
